import Mathlib

/-!
Verification of the theme-merging engine of sunteya/vscode-themes
(src/lib/theme-utils.ts): the shallow overwrite merger, the deep merge
engine, and the token-rule reconciler deepMergeTokenColor.
-/

namespace ThemeMerge

/-! ### Definitions: the data model and the merge engine -/

/-- A style attribute value as it occurs in a settings object:
`none` models the JSON null deletion marker, `some v` a string value. -/
abbrev SVal := Option String

/-- The settings object of a token rule (interface TokenColor.settings with
fields foreground and fontStyle).  A field is `none` when the attribute is
absent from the object, `some w` when present with value `w`. -/
structure Settings where
  foreground : Option SVal
  fontStyle : Option SVal
deriving DecidableEq, Repr

/-- The scope field of a token rule: either a single string or an array of
strings, as in the TypeScript type `string[] | string`. -/
inductive ScopeField where
  | str : String → ScopeField
  | arr : List String → ScopeField
deriving DecidableEq, Repr

/-- A token color rule: a scope field and a settings object. -/
structure TokenColor where
  scope : ScopeField
  settings : Settings
deriving DecidableEq, Repr

/-- The scope list of a rule as used when building the scope index:
`Array.isArray(rule.scope) ? rule.scope : [rule.scope]`. -/
def scopesOf : ScopeField → List String
  | .str s => [s]
  | .arr l => l

/-- Splitting of a character list at every space character, keeping empty
pieces, as JavaScript `split(' ')` does on the underlying characters. -/
def splitChars (cs : List Char) : List (List Char) :=
  match cs with
  | [] => [[]]
  | c :: rest =>
    if c = ' ' then [] :: splitChars rest
    else
      match splitChars rest with
      | [] => [[c]]
      | p :: ps => (c :: p) :: ps

/-- JavaScript `s.split(' ')`: the pieces of `s` between single spaces,
empty pieces kept. -/
def splitOnSpace (s : String) : List String :=
  (splitChars s.toList).map (fun cs => String.mk cs)

/-- The scope list of a rule as used inside the group-processing loop:
`Array.isArray(ruleInGroup.scope) ? ruleInGroup.scope : ruleInGroup.scope.split(' ')`.
A bare string is split on single spaces here, unlike in `scopesOf`. -/
def splitScopes : ScopeField → List String
  | .str s => splitOnSpace s
  | .arr l => l

/-- The scope-to-index map of deepMergeTokenColor: every scope of every base
rule is mapped to the rule index, later assignments overwriting earlier
ones (JavaScript Map.set semantics). -/
def scopeIndex (rules : List TokenColor) (s : String) : Option Nat :=
  rules.enum.foldl (fun acc p => if s ∈ scopesOf p.2.scope then some p.1 else acc) none

/-- One step of building the scopesByGroup map: append scope `s` to the entry
for key `k`, creating the entry at the end when the key is new. -/
def insertGroup (gs : List (Option Nat × List String)) (k : Option Nat) (s : String) :
    List (Option Nat × List String) :=
  match gs with
  | [] => [(k, [s])]
  | (k', ss) :: rest =>
    if k' = k then (k', ss ++ [s]) :: rest else (k', ss) :: insertGroup rest k s

/-- The scopesByGroup map of deepMergeTokenColor: the scopes of the new rule,
grouped by the index of the base rule owning each scope (`none` = unclaimed),
keys in first-encounter order, scopes of a group in encounter order. -/
def buildGroups (idx : String → Option Nat) (newScopes : List String) :
    List (Option Nat × List String) :=
  newScopes.foldl (fun gs s => insertGroup gs (idx s) s) []

/-- Association-list lookup with keys of type `Option Nat`. -/
def lookupG (gs : List (Option Nat × List String)) (q : Option Nat) : Option (List String) :=
  match gs with
  | [] => none
  | (k, v) :: rest => if k = q then some v else lookupG rest q

/-- The shallow spread-merge of two settings objects followed by deletion of
the attributes that are null in the new settings, per attribute:
`{...old, ...new}` then `delete merged[key]` for every null key of new. -/
def mergeField (o n : Option SVal) : Option SVal :=
  match n with
  | none => o
  | some none => none
  | some (some v) => some (some v)

/-- The merged settings produced for an intersecting fragment. -/
def mergeSettings (old new : Settings) : Settings :=
  { foreground := mergeField old.foreground new.foreground
    fontStyle := mergeField old.fontStyle new.fontStyle }

/-- The fragment list that replaces the slot of a base rule whose group of
new-rule scopes is `ss`: the trimmed remainder (followed by the untouched
tail of the slot, empty in every reachable state) and the intersected
merged fragment, each present only when non-empty. -/
def groupFragments (old : List TokenColor) (ss : List String) (newSettings : Settings) :
    List TokenColor :=
  match old.head? with
  | none => old
  | some ruleInGroup =>
    let ruleScopes := splitScopes ruleInGroup.scope
    let intersecting := ruleScopes.filter (fun s => s ∈ ss)
    let remaining := ruleScopes.filter (fun s => s ∉ ss)
    let trimmed : TokenColor := { ruleInGroup with scope := .arr remaining }
    let merged : TokenColor :=
      { scope := .arr intersecting
        settings := mergeSettings ruleInGroup.settings newSettings }
    (if remaining.isEmpty then [] else trimmed :: old.tail) ++
    (if intersecting.isEmpty then [] else [merged])

/-- Processing of one entry of scopesByGroup against the working state, a
list of per-slot fragment lists: an unclaimed group appends a brand-new
rule at the end, a claimed group rewrites the slot of its base rule. -/
def applyGroup (newSettings : Settings) (st : List (List TokenColor)) :
    Option Nat × List String → List (List TokenColor)
  | (none, ss) => st ++ [[{ scope := .arr ss, settings := newSettings }]]
  | (some i, ss) =>
    match st[i]? with
    | none => st
    | some old => st.set i (groupFragments old ss newSettings)

/-- The token-rule reconciler (function deepMergeTokenColor of
src/lib/theme-utils.ts): seed one singleton slot per base rule, process
every group of new-rule scopes, and flatten the slots. -/
def deepMergeTokenColor (baseTokenColors : List TokenColor) (newRule : TokenColor) :
    List TokenColor :=
  let result := baseTokenColors.map (fun r => [r])
  let groups := buildGroups (scopeIndex baseTokenColors) (scopesOf newRule.scope)
  (groups.foldl (applyGroup newRule.settings) result).flatten

/-- The fragments replacing base rule slot `p` in the reconciler output: the
rule itself when no new-rule scope is owned by it, else the trimmed
remainder (when any scope remains) directly followed by the intersected
merged fragment (when any scope intersects), both with array scopes. -/
def layoutFragment (rules : List TokenColor) (newRule : TokenColor)
    (p : Nat × TokenColor) : List TokenColor :=
  let group := (scopesOf newRule.scope).filter (fun s => scopeIndex rules s = some p.1)
  if group.isEmpty then [p.2]
  else
    let ruleScopes := splitScopes p.2.scope
    let intersecting := ruleScopes.filter (fun s => s ∈ group)
    let remaining := ruleScopes.filter (fun s => s ∉ group)
    (if remaining.isEmpty then []
     else [{ p.2 with scope := ScopeField.arr remaining }]) ++
    (if intersecting.isEmpty then []
     else [{ scope := ScopeField.arr intersecting
             settings := mergeSettings p.2.settings newRule.settings : TokenColor }])

/-- The single brand-new rule for the previously unclaimed scopes, absent
when every new-rule scope already had an owner. -/
def layoutTail (rules : List TokenColor) (newRule : TokenColor) : List TokenColor :=
  let unclaimed := (scopesOf newRule.scope).filter (fun s => scopeIndex rules s = none)
  if unclaimed.isEmpty then []
  else [{ scope := ScopeField.arr unclaimed, settings := newRule.settings }]

/-- The output layout of the reconciler, written after the description of the
output order: every base rule slot in original order, replaced in place by
its fragments, and the rule created for unclaimed scopes after everything. -/
def reconcileLayout (rules : List TokenColor) (newRule : TokenColor) : List TokenColor :=
  (rules.enum.map (layoutFragment rules newRule)).flatten ++ layoutTail rules newRule

/-- An entry of a colors or semanticTokenColors object: key and value, the
value `none` when the property is present with the absent (undefined)
marker. -/
abbrev Rec' (α : Type) := List (String × Option α)

/-- JavaScript property assignment `m[k] = v` on an object modelled as an
entry list: overwrite the entry of key `k` in place, or append a new one. -/
def setKey {α : Type} (m : Rec' α) (k : String) (v : Option α) : Rec' α :=
  if m.any (fun e => e.1 = k) then m.map (fun e => if e.1 = k then (k, v) else e)
  else m ++ [(k, v)]

/-- First-match association lookup on an entry list. -/
def lookupRec {α : Type} (m : Rec' α) (k : String) : Option (Option α) :=
  match m with
  | [] => none
  | e :: rest => if e.1 = k then some e.2 else lookupRec rest k

/-- The key-level merge of a colors (or semanticTokenColors) object: start
from a spread copy of the accumulator object and set every key of the source
object whose value is not undefined; a missing source object changes
nothing. -/
def mergeRecord {α : Type} (acc : Rec' α) (src : Option (Rec' α)) : Rec' α :=
  match src with
  | none => acc
  | some entries =>
    entries.foldl (fun m e =>
      match e.2 with
      | none => m
      | some v => setKey m e.1 (some v)) acc

/-- A theme document or fragment: each top-level field `none` when missing
from the object (Theme and Partial Theme of src/lib/theme-utils.ts). -/
structure ThemeF where
  colors : Option (Rec' String)
  tokenColors : Option (List TokenColor)
  semanticHighlighting : Option Bool
  semanticTokenColors : Option (Rec' String)
deriving DecidableEq, Repr

/-- One step of overwriteTheme: the filtered source fields, each present one
wholly replacing the field of the accumulator. -/
def overwriteStep (acc src : ThemeF) : ThemeF :=
  { colors := src.colors.orElse (fun _ => acc.colors)
    tokenColors := src.tokenColors.orElse (fun _ => acc.tokenColors)
    semanticHighlighting := src.semanticHighlighting.orElse (fun _ => acc.semanticHighlighting)
    semanticTokenColors := src.semanticTokenColors.orElse (fun _ => acc.semanticTokenColors) }

/-- Function overwriteTheme of src/lib/theme-utils.ts: shallow
Object.assign of the filtered sources onto a clone of the base, left to
right. -/
def overwriteTheme (baseTheme : ThemeF) (sources : List ThemeF) : ThemeF :=
  sources.foldl overwriteStep baseTheme

/-- The tokenColors fold of one deepMergeTheme step.  The state is the
current value of finalTokenColors wrapped so that `none` records the
TypeError thrown when deepMergeTokenColor is called on an undefined base
list: `some none` is an undefined finalTokenColors, `some (some l)` a real
list. -/
def foldTokenColors (start : Option (List TokenColor)) (rules : List TokenColor) :
    Option (Option (List TokenColor)) :=
  rules.foldl (fun st r =>
    match st with
    | none => none
    | some none => none
    | some (some l) => some (some (deepMergeTokenColor l r))) (some start)

/-- One source step of deepMergeTheme: key-merge colors, fold every source
token rule through the reconciler, key-merge semanticTokenColors, and spread
the source over the accumulator before installing the three merged fields.
`none` records the run-time error on an undefined base tokenColors. -/
def deepMergeStep (acc source : ThemeF) : Option ThemeF :=
  let newMergedColors := mergeRecord (acc.colors.getD []) source.colors
  match foldTokenColors acc.tokenColors (source.tokenColors.getD []) with
  | none => none
  | some finalTokenColors =>
    let newSemanticTokenColors := mergeRecord (acc.semanticTokenColors.getD []) source.semanticTokenColors
    some
      { colors := some newMergedColors
        tokenColors := finalTokenColors
        semanticHighlighting := source.semanticHighlighting.orElse (fun _ => acc.semanticHighlighting)
        semanticTokenColors := some newSemanticTokenColors }

/-- Function deepMergeTheme of src/lib/theme-utils.ts: fold every source
through deepMergeStep starting from a clone of the base; `none` is the
TypeError raised when a source holds token rules while the accumulated
tokenColors is undefined. -/
def deepMergeTheme (baseTheme : ThemeF) (sources : List ThemeF) : Option ThemeF :=
  sources.foldlM deepMergeStep baseTheme

/-- No two rules of the list claim a common scope, the precondition the
reconciler maintains as an invariant of its own output. -/
def DisjointScopes (rules : List TokenColor) : Prop :=
  List.Pairwise (fun r r' => ∀ s ∈ scopesOf r.scope, s ∉ scopesOf r'.scope) rules

instance (rules : List TokenColor) : Decidable (DisjointScopes rules) := by
  unfold DisjointScopes
  exact List.instDecidablePairwise rules

/-- The content of the slot of base rule position `p.1` after all groups are
processed: untouched when no group claims it, else its fragment list. -/
def slotView (gs : List (Option Nat × List String)) (T : Settings)
    (p : Nat × List TokenColor) : List TokenColor :=
  match lookupG gs (some p.1) with
  | none => p.2
  | some ss => groupFragments p.2 ss T

/-- The slot appended for the unclaimed group, when present. -/
def tailView (gs : List (Option Nat × List String)) (T : Settings) :
    List (List TokenColor) :=
  match lookupG gs none with
  | none => []
  | some ss => [[{ scope := ScopeField.arr ss, settings := T }]]

/-- All scope strings mentioned across a rule sequence. -/
def mentionedScopes (rules : List TokenColor) : List String :=
  (rules.map (fun r => scopesOf r.scope)).flatten

/-- The settings of the first rule of the sequence claiming scope `s`. -/
def settingsFor (l : List TokenColor) (s : String) : Option Settings :=
  (l.find? (fun r => s ∈ scopesOf r.scope)).map (fun r => r.settings)

/-- The effective value of a settings attribute: a null (deletion marker)
entry is as good as an absent one for the rendered style. -/
def effectiveValue : Option SVal → Option String
  | none => none
  | some none => none
  | some (some v) => some v

/-- The effective attribute values of a settings object. -/
def effectiveSettings (st : Settings) : Option String × Option String :=
  (effectiveValue st.foreground, effectiveValue st.fontStyle)

/-- The effective settings owning scope `s`, or `none` when unclaimed. -/
def effSettingsFor (l : List TokenColor) (s : String) :
    Option (Option String × Option String) :=
  (settingsFor l s).map effectiveSettings

/-- The value a source object contributes for key `k`: its last entry for
`k` whose value is not the undefined marker. -/
def definedValue {α : Type} (entries : Rec' α) (k : String) : Option α :=
  entries.foldr (fun e a => a.orElse (fun _ => if e.1 = k then e.2 else none)) none

/-- The first branch of a two-way overlay: a defined source value wins,
anything else falls back. -/
def overlayLookup {α : Type} (x : Option α) (d : Option (Option α)) : Option (Option α) :=
  match x with
  | some v => some (some v)
  | none => d

/-- The colors value a source document defines for key `k`, if any. -/
def sourceDefined (src : ThemeF) (k : String) : Option String :=
  match src.colors with
  | none => none
  | some entries => definedValue entries k

/-- The colors value for key `k` in the last source whose colors define it
with a value that is not the absent marker. -/
def lastDefined (sources : List ThemeF) (k : String) : Option String :=
  sources.foldr (fun src acc => acc.orElse (fun _ => sourceDefined src k)) none

/-- The last source that carries the field, else the base value. -/
def lastPresent {α : Type} (b : Option α) (l : List (Option α)) : Option α :=
  l.foldl (fun acc o => o.orElse (fun _ => acc)) b

/-- A rule with its scope field in the canonical array encoding. -/
def canonRule (r : TokenColor) : TokenColor :=
  { scope := ScopeField.arr (scopesOf r.scope), settings := r.settings }

/-- Settings with foreground #111. -/
def exSettings1 : Settings := { foreground := some (some "#111"), fontStyle := none }

/-- Settings with foreground #222. -/
def exSettings2 : Settings := { foreground := some (some "#222"), fontStyle := none }

/-- A base rule whose bare-string scope contains a space. -/
def exRuleAB : TokenColor := { scope := ScopeField.str "a b", settings := exSettings1 }

/-- A new rule claiming the same space-containing scope string. -/
def exNewAB : TokenColor := { scope := ScopeField.str "a b", settings := exSettings2 }

/-- A rule for an unclaimed scope c. -/
def exCRule : TokenColor := { scope := ScopeField.str "c", settings := { foreground := none, fontStyle := none } }

/-- An array-scoped rule on a and b. -/
def exRuleArrAB : TokenColor := { scope := ScopeField.arr ["a", "b"], settings := exSettings1 }

/-- A bare-string rule on c. -/
def exRuleC : TokenColor := { scope := ScopeField.str "c", settings := exSettings2 }

/-- The rule and new rule of scenario 3 of the specification. -/
def exRuleX : TokenColor :=
  { scope := ScopeField.arr ["x"],
    settings := { foreground := some (some "#aaa"), fontStyle := some (some "italic") } }

/-- A new rule deleting fontStyle through the null marker. -/
def exNewX : TokenColor :=
  { scope := ScopeField.str "x",
    settings := { foreground := none, fontStyle := some none } }

/-- A bare-string rule on x without spaces. -/
def exRuleStrX : TokenColor := { scope := ScopeField.str "x", settings := exSettings1 }

/-- A new rule with a value and a null marker, for the idempotence witness. -/
def exNewA : TokenColor :=
  { scope := ScopeField.str "a",
    settings := { foreground := some (some "#222"), fontStyle := some none } }

/-- The new rule of scenario 2: an italic rule on the unclaimed scope c. -/
def exNewC : TokenColor :=
  { scope := ScopeField.str "c",
    settings := { foreground := none, fontStyle := some (some "italic") } }

/-! ### Theorems -/

theorem foldl_scopeStep_eq_some (s : String) (l : List (Nat × TokenColor)) :
    ∀ (init : Option Nat) (i : Nat),
      l.foldl (fun acc p => if s ∈ scopesOf p.2.scope then some p.1 else acc) init = some i →
      (∃ p ∈ l, p.1 = i ∧ s ∈ scopesOf p.2.scope) ∨ init = some i := by
  induction l with
  | nil => intro init i h; exact Or.inr h
  | cons a t ih =>
    intro init i h
    simp only [List.foldl_cons] at h
    rcases ih _ i h with ⟨p, hp, rest⟩ | hinit
    · exact Or.inl ⟨p, List.mem_cons_of_mem a hp, rest⟩
    · by_cases hs : s ∈ scopesOf a.2.scope
      · simp only [hs, if_pos] at hinit
        exact Or.inl ⟨a, List.mem_cons_self a t, (Option.some_inj.mp hinit).symm ▸ ⟨rfl, hs⟩⟩
      · simp only [hs, if_neg, not_false_iff] at hinit
        exact Or.inr hinit

theorem foldl_scopeStep_some_ne_none (s : String) (l : List (Nat × TokenColor)) :
    ∀ (j : Nat),
      l.foldl (fun acc p => if s ∈ scopesOf p.2.scope then some p.1 else acc) (some j) ≠ none := by
  induction l with
  | nil => intro j h; exact Option.noConfusion h
  | cons a t ih =>
    intro j
    simp only [List.foldl_cons]
    by_cases hs : s ∈ scopesOf a.2.scope
    · simp only [hs, if_pos]; exact ih a.1
    · simp only [hs, if_neg, not_false_iff]; exact ih j

/-- A scope index hit names a base rule that indeed claims the scope. -/
theorem scopeIndex_eq_some (rules : List TokenColor) (s : String) (i : Nat)
    (h : scopeIndex rules s = some i) :
    ∃ hi : i < rules.length, s ∈ scopesOf (rules[i]).scope := by
  rcases foldl_scopeStep_eq_some s rules.enum none i h with ⟨p, hp, hpi, hps⟩ | hbad
  · have hget : rules[p.1]? = some p.2 := List.mem_enum_iff_getElem?.mp hp
    have hlt : p.1 < rules.length := by
      by_contra hge
      rw [List.getElem?_eq_none (Nat.le_of_not_lt hge)] at hget
      exact Option.noConfusion hget
    refine ⟨hpi ▸ hlt, ?_⟩
    have : rules[p.1] = p.2 := by
      have := List.getElem?_eq_getElem hlt
      rw [this] at hget
      exact Option.some_inj.mp hget
    subst hpi
    rw [this]
    exact hps
  · exact Option.noConfusion hbad

theorem foldl_scopeStep_ne_none (s : String) (l : List (Nat × TokenColor))
    (hex : ∃ p ∈ l, s ∈ scopesOf p.2.scope) :
    ∀ init, l.foldl (fun acc p => if s ∈ scopesOf p.2.scope then some p.1 else acc) init ≠ none := by
  induction l with
  | nil => rcases hex with ⟨p, hp, _⟩; exact absurd hp (List.not_mem_nil p)
  | cons a t ih =>
    intro init
    simp only [List.foldl_cons]
    by_cases hsa : s ∈ scopesOf a.2.scope
    · rw [if_pos hsa]
      exact foldl_scopeStep_some_ne_none s t a.1
    · rw [if_neg hsa]
      rcases hex with ⟨p, hp, hps⟩
      rcases List.mem_cons.mp hp with rfl | hpt
      · exact absurd hps hsa
      · exact ih ⟨p, hpt, hps⟩ init

/-- A scope claimed by some rule of the list is hit by the index. -/
theorem scopeIndex_isSome_of_mem (rules : List TokenColor) (s : String) (r : TokenColor)
    (hr : r ∈ rules) (hs : s ∈ scopesOf r.scope) :
    ∃ i, scopeIndex rules s = some i := by
  obtain ⟨n, hn, hget⟩ := List.mem_iff_getElem.mp hr
  have hmem : (n, r) ∈ rules.enum := by
    rw [List.mk_mem_enum_iff_getElem?, List.getElem?_eq_getElem hn, hget]
  have hne := foldl_scopeStep_ne_none s rules.enum ⟨(n, r), hmem, by simpa [hget] using hs⟩ none
  unfold scopeIndex
  rcases h : rules.enum.foldl
      (fun acc p => if s ∈ scopesOf p.2.scope then some p.1 else acc) none with _ | i
  · exact absurd h hne
  · exact ⟨i, h⟩

/-- Under scope disjointness the index maps each claimed scope to the unique
rule claiming it. -/
theorem scopeIndex_eq_of_disjoint (rules : List TokenColor) (s : String) (i : Nat)
    (hdisj : DisjointScopes rules) (hi : i < rules.length)
    (hs : s ∈ scopesOf (rules[i]).scope) :
    scopeIndex rules s = some i := by
  obtain ⟨j, hj⟩ := scopeIndex_isSome_of_mem rules s (rules[i]) (List.getElem_mem hi) hs
  obtain ⟨hjl, hjs⟩ := scopeIndex_eq_some rules s j hj
  have hij : i = j := by
    by_contra hne
    have hpw := List.pairwise_iff_getElem.mp hdisj
    rcases Nat.lt_or_ge i j with hlt | hge
    · exact hpw i j hi hjl hlt s hs hjs
    · have hlt : j < i := Nat.lt_of_le_of_ne hge (fun h => hne h.symm)
      exact hpw j i hjl hi hlt s hjs hs
  rw [hj, hij]

theorem lookupG_insertGroup (gs : List (Option Nat × List String)) (k q : Option Nat)
    (s : String) :
    lookupG (insertGroup gs k s) q =
      if k = q then some ((lookupG gs q).getD [] ++ [s]) else lookupG gs q := by
  induction gs with
  | nil =>
    by_cases hkq : k = q <;> simp [insertGroup, lookupG, hkq]
  | cons e rest ih =>
    obtain ⟨k', ss⟩ := e
    by_cases hk : k' = k
    · subst hk
      by_cases hkq : k' = q <;> simp [insertGroup, lookupG, hkq]
    · by_cases hq : k' = q
      · subst hq
        have hne : ¬ k = k' := fun h => hk h.symm
        simp [insertGroup, lookupG, hk, hne]
      · simp [insertGroup, lookupG, hk, hq, ih]

theorem lookupG_eq_none_iff (gs : List (Option Nat × List String)) (q : Option Nat) :
    lookupG gs q = none ↔ q ∉ gs.map Prod.fst := by
  induction gs with
  | nil => simp [lookupG]
  | cons e rest ih =>
    by_cases hq : e.1 = q
    · simp [lookupG, hq]
    · rw [show lookupG (e :: rest) q = lookupG rest q by simp [lookupG, hq], ih]
      simp only [List.map_cons, List.mem_cons, not_or]
      constructor
      · intro h
        exact ⟨fun h1 => hq h1.symm, h⟩
      · intro h
        exact h.2

theorem keys_insertGroup (gs : List (Option Nat × List String)) (k : Option Nat) (s : String) :
    (insertGroup gs k s).map Prod.fst =
      if k ∈ gs.map Prod.fst then gs.map Prod.fst else gs.map Prod.fst ++ [k] := by
  induction gs with
  | nil => simp [insertGroup]
  | cons e rest ih =>
    by_cases hk : e.1 = k
    · simp [insertGroup, hk]
    · have : ¬ k = e.1 := fun h => hk h.symm
      by_cases hmem : k ∈ rest.map Prod.fst <;> simp [insertGroup, hk, this, ih, hmem]

theorem keys_insertGroup_nodup (gs : List (Option Nat × List String)) (k : Option Nat)
    (s : String) (h : (gs.map Prod.fst).Nodup) : ((insertGroup gs k s).map Prod.fst).Nodup := by
  rw [keys_insertGroup]
  by_cases hmem : k ∈ gs.map Prod.fst
  · simpa [hmem] using h
  · rw [if_neg hmem]
    exact h.append (List.nodup_singleton k)
      (by simpa [List.disjoint_singleton] using hmem)

theorem buildGroups_keys_nodup (idx : String → Option Nat) (newScopes : List String) :
    ((buildGroups idx newScopes).map Prod.fst).Nodup := by
  suffices h : ∀ gs : List (Option Nat × List String), (gs.map Prod.fst).Nodup →
      ((newScopes.foldl (fun gs s => insertGroup gs (idx s) s) gs).map Prod.fst).Nodup by
    exact h [] (by simp)
  induction newScopes with
  | nil => intro gs h; exact h
  | cons s rest ih =>
    intro gs h
    exact ih _ (keys_insertGroup_nodup gs (idx s) s h)

/-- The group map sends a key to the subsequence of new scopes owned by that
key, and holds no empty groups. -/
theorem lookupG_buildGroups (idx : String → Option Nat) (newScopes : List String)
    (q : Option Nat) :
    lookupG (buildGroups idx newScopes) q =
      (fun l => if l.isEmpty then none else some l)
        (newScopes.filter (fun s => idx s = q)) := by
  suffices h : ∀ gs : List (Option Nat × List String),
      lookupG (newScopes.foldl (fun gs s => insertGroup gs (idx s) s) gs) q =
        match lookupG gs q with
        | some ss => some (ss ++ newScopes.filter (fun s => idx s = q))
        | none =>
          (fun l => if l.isEmpty then none else some l)
            (newScopes.filter (fun s => idx s = q)) by
    have := h []
    simpa [lookupG] using this
  induction newScopes with
  | nil =>
    intro gs
    cases h : lookupG gs q <;> simp [h, List.filter]
  | cons s rest ih =>
    intro gs
    simp only [List.foldl_cons]
    rw [ih (insertGroup gs (idx s) s), lookupG_insertGroup]
    by_cases hq : idx s = q
    · cases h : lookupG gs q <;>
        simp [hq, h, List.filter_cons, Option.getD]
    · cases h : lookupG gs q <;>
        simp [hq, h, List.filter_cons]

theorem buildGroups_key_of_mem (idx : String → Option Nat) (newScopes : List String)
    (q : Option Nat) (hq : q ∈ (buildGroups idx newScopes).map Prod.fst) :
    ∃ s ∈ newScopes, idx s = q := by
  have hlk : lookupG (buildGroups idx newScopes) q ≠ none := by
    rw [Ne, lookupG_eq_none_iff]; exact fun h => h hq
  rw [lookupG_buildGroups] at hlk
  rcases h : newScopes.filter (fun s => idx s = q) with _ | ⟨s, ts⟩
  · rw [h] at hlk
    simp at hlk
  · have hs : s ∈ newScopes.filter (fun s => idx s = q) := by
      rw [h]
      exact List.mem_cons_self s ts
    have := List.mem_filter.mp hs
    exact ⟨s, this.1, by simpa using this.2⟩

theorem lookupG_eq_some_mem_keys (gs : List (Option Nat × List String)) (q : Option Nat)
    (v : List String) (h : lookupG gs q = some v) : q ∈ gs.map Prod.fst := by
  by_contra hmem
  rw [← lookupG_eq_none_iff gs q] at hmem
  rw [h] at hmem
  exact Option.noConfusion hmem

theorem slotView_of_none (gs : List (Option Nat × List String)) (T : Settings)
    (p : Nat × List TokenColor) (h : lookupG gs (some p.1) = none) :
    slotView gs T p = p.2 := by
  simp [slotView, h]

theorem slotView_of_some (gs : List (Option Nat × List String)) (T : Settings)
    (p : Nat × List TokenColor) (ss : List String) (h : lookupG gs (some p.1) = some ss) :
    slotView gs T p = groupFragments p.2 ss T := by
  simp [slotView, h]

theorem applyGroup_none (T : Settings) (st : List (List TokenColor)) (ss : List String) :
    applyGroup T st (none, ss) =
      st ++ [[({ scope := ScopeField.arr ss, settings := T } : TokenColor)]] := rfl

theorem applyGroup_some (T : Settings) (st : List (List TokenColor)) (i : Nat)
    (ss : List String) (hi : i < st.length) :
    applyGroup T st (some i, ss) = st.set i (groupFragments (st[i]) ss T) := by
  have h : st[i]? = some (st[i]) := List.getElem?_eq_getElem hi
  simp [applyGroup, h]

/-- Processing the whole group map rewrites every claimed slot in place and
appends the unclaimed slot at the very end. -/
theorem foldl_applyGroup_spec (T : Settings) :
    ∀ (gs : List (Option Nat × List String)) (st : List (List TokenColor)),
      ((gs.map Prod.fst).Nodup) →
      (∀ p ∈ gs, ∀ i : Nat, p.1 = some i → i < st.length) →
      gs.foldl (applyGroup T) st = st.enum.map (slotView gs T) ++ tailView gs T := by
  intro gs
  induction gs with
  | nil =>
    intro st _ _
    have hmap : st.enum.map (slotView [] T) = st.enum.map Prod.snd := by
      refine List.map_congr_left (fun p _ => ?_)
      exact slotView_of_none [] T p rfl
    simp [hmap, tailView, lookupG, List.enum_map_snd]
  | cons g rest ih =>
    intro st hnodup hbound
    obtain ⟨k, ss⟩ := g
    have hnodup2 : k ∉ rest.map Prod.fst ∧ (rest.map Prod.fst).Nodup := by
      rw [List.map_cons, List.nodup_cons] at hnodup
      exact hnodup
    have hknotin : k ∉ rest.map Prod.fst := hnodup2.1
    have hnodup' : (rest.map Prod.fst).Nodup := hnodup2.2
    have hrest_none : lookupG rest k = none := (lookupG_eq_none_iff rest k).mpr hknotin
    simp only [List.foldl_cons]
    cases k with
    | none =>
      rw [applyGroup_none, ih _ hnodup'
        (fun p hp i hpi => Nat.lt_of_lt_of_le (hbound p (List.mem_cons_of_mem _ hp) i hpi)
          (by simp))]
      have henum : (st ++ [[({ scope := ScopeField.arr ss, settings := T } : TokenColor)]]).enum =
          st.enum ++ [(st.length, [({ scope := ScopeField.arr ss, settings := T } : TokenColor)])] := by
        rw [List.enum_append]
        simp [List.enumFrom]
      rw [henum, List.map_append]
      have hlen_none : lookupG rest (some st.length) = none := by
        rcases h : lookupG rest (some st.length) with _ | v
        · rfl
        · exfalso
          have hkey := lookupG_eq_some_mem_keys rest (some st.length) v h
          rcases List.mem_map.mp hkey with ⟨p, hp, hpk⟩
          exact Nat.lt_irrefl st.length
            (hbound p (List.mem_cons_of_mem _ hp) st.length hpk)
      have htl : [(st.length, [({ scope := ScopeField.arr ss, settings := T } : TokenColor)])].map
          (slotView rest T) = [[({ scope := ScopeField.arr ss, settings := T } : TokenColor)]] := by
        simp only [List.map_cons, List.map_nil]
        rw [slotView_of_none rest T _ hlen_none]
      rw [htl]
      have hmap : st.enum.map (slotView rest T) = st.enum.map (slotView ((none, ss) :: rest) T) := by
        refine List.map_congr_left (fun p _ => ?_)
        have : lookupG ((none, ss) :: rest) (some p.1) = lookupG rest (some p.1) := by
          simp [lookupG]
        simp [slotView, this]
      have htail : tailView rest T = [] := by
        simp [tailView, hrest_none]
      have htail' : tailView ((none, ss) :: rest) T =
          [[({ scope := ScopeField.arr ss, settings := T } : TokenColor)]] := by
        simp [tailView, lookupG]
      simp [hmap, htail, htail']
    | some i =>
      have hi : i < st.length := hbound (some i, ss) (List.mem_cons_self _ _) i rfl
      rw [applyGroup_some T st i ss hi, ih _ hnodup'
        (fun p hp j hpj => by
          have := hbound p (List.mem_cons_of_mem _ hp) j hpj
          simpa using this)]
      have hmap : (st.set i (groupFragments (st[i]) ss T)).enum.map (slotView rest T) =
          st.enum.map (slotView ((some i, ss) :: rest) T) := by
        apply List.ext_getElem
        · simp
        · intro j hj1 hj2
          have hjlen : j < st.length := by simpa using hj2
          have hjlen' : j < (st.set i (groupFragments (st[i]) ss T)).length := by
            simpa using hjlen
          rw [List.getElem_map, List.getElem_map, List.getElem_enum, List.getElem_enum]
          by_cases hij : i = j
          · subst hij
            have hset : (st.set i (groupFragments (st[i]) ss T))[i] =
                groupFragments (st[i]) ss T := by
              rw [List.getElem_set]
              simp
            rw [hset]
            rw [slotView_of_none rest T _ hrest_none]
            have hcons : lookupG ((some i, ss) :: rest) (some i) = some ss := by
              simp [lookupG]
            rw [slotView_of_some ((some i, ss) :: rest) T _ ss hcons]
          · have hset : (st.set i (groupFragments (st[i]) ss T))[j] =
                st[j] := by
              rw [List.getElem_set]
              simp [hij]
            rw [hset]
            have hcons : lookupG ((some i, ss) :: rest) (some j) = lookupG rest (some j) := by
              simp only [lookupG]
              rw [if_neg]
              intro h
              exact hij (by simpa using h)
            simp [slotView, hcons]
      rw [hmap]
      have htail : tailView rest T = tailView ((some i, ss) :: rest) T := by
        have : lookupG ((some i, ss) :: rest) none = lookupG rest none := by
          simp [lookupG]
        simp [tailView, this]
      rw [htail]

/-- The reconciler output, slot by slot: every base rule slot in original
order, rewritten in place when some new-rule scope is owned by it, and the
unclaimed-scope rule at the very end. -/
theorem deepMergeTokenColor_eq_reconcileLayout (rules : List TokenColor)
    (newRule : TokenColor) :
    deepMergeTokenColor rules newRule = reconcileLayout rules newRule := by
  have hbound : ∀ p ∈ buildGroups (scopeIndex rules) (scopesOf newRule.scope), ∀ i : Nat,
      p.1 = some i → i < (rules.map (fun r => [r])).length := by
    intro p hp i hpi
    have hkey : p.1 ∈ (buildGroups (scopeIndex rules) (scopesOf newRule.scope)).map Prod.fst :=
      List.mem_map_of_mem Prod.fst hp
    rw [hpi] at hkey
    obtain ⟨s, _, hs⟩ := buildGroups_key_of_mem _ _ _ hkey
    obtain ⟨hlt, -⟩ := scopeIndex_eq_some rules s i hs
    simpa using hlt
  have hnodup := buildGroups_keys_nodup (scopeIndex rules) (scopesOf newRule.scope)
  change ((buildGroups (scopeIndex rules) (scopesOf newRule.scope)).foldl
      (applyGroup newRule.settings) (rules.map (fun r => [r]))).flatten =
    reconcileLayout rules newRule
  rw [foldl_applyGroup_spec newRule.settings _ _ hnodup hbound, List.flatten_append]
  unfold reconcileLayout
  congr 1
  · rw [List.enum_map, List.map_map]
    refine congrArg List.flatten (List.map_congr_left (fun p _ => ?_))
    show slotView (buildGroups (scopeIndex rules) (scopesOf newRule.scope))
      newRule.settings (p.1, [p.2]) = _
    rcases hfilter : (scopesOf newRule.scope).filter
        (fun s => decide (scopeIndex rules s = some p.1)) with _ | ⟨s0, srest⟩
    · have hlk : lookupG (buildGroups (scopeIndex rules) (scopesOf newRule.scope))
          (some p.1) = none := by
        rw [lookupG_buildGroups, hfilter]
        rfl
      rw [slotView_of_none _ _ _ hlk]
      simp [layoutFragment, hfilter]
    · have hlk : lookupG (buildGroups (scopeIndex rules) (scopesOf newRule.scope))
          (some p.1) = some (s0 :: srest) := by
        rw [lookupG_buildGroups, hfilter]
        rfl
      rw [slotView_of_some _ _ _ _ hlk]
      simp only [layoutFragment, hfilter, List.isEmpty_cons, Bool.false_eq_true, if_false]
      simp [groupFragments]
  · rcases hfilter : (scopesOf newRule.scope).filter
        (fun s => decide (scopeIndex rules s = none)) with _ | ⟨s0, srest⟩
    · have hlk : lookupG (buildGroups (scopeIndex rules) (scopesOf newRule.scope)) none = none := by
        rw [lookupG_buildGroups, hfilter]
        rfl
      simp [tailView, layoutTail, hlk, hfilter]
    · have hlk : lookupG (buildGroups (scopeIndex rules) (scopesOf newRule.scope)) none =
          some (s0 :: srest) := by
        rw [lookupG_buildGroups, hfilter]
        rfl
      simp [tailView, layoutTail, hlk, hfilter]

theorem mem_mentionedScopes (l : List TokenColor) (s : String) :
    s ∈ mentionedScopes l ↔ ∃ r ∈ l, s ∈ scopesOf r.scope := by
  unfold mentionedScopes
  rw [List.mem_flatten]
  constructor
  · rintro ⟨piece, hp, hs⟩
    rcases List.mem_map.mp hp with ⟨r, hr, rfl⟩
    exact ⟨r, hr, hs⟩
  · rintro ⟨r, hr, hs⟩
    exact ⟨scopesOf r.scope, List.mem_map_of_mem _ hr, hs⟩

theorem bool_eq_of_iff {a b : Bool} (h : a = true ↔ b = true) : a = b := by
  cases a <;> cases b <;> simp_all

/-- Under disjointness, the group of a base rule slot is exactly the
new-rule scopes claimed by that rule. -/
theorem group_filter_eq (rules : List TokenColor) (N : List String) (i : Nat)
    (hdisj : DisjointScopes rules) (hi : i < rules.length) :
    N.filter (fun s => scopeIndex rules s = some i) =
      N.filter (fun s => s ∈ scopesOf (rules[i]).scope) := by
  refine List.filter_congr (fun s _ => ?_)
  rw [decide_eq_decide]
  constructor
  · intro h
    obtain ⟨hlt, hmem⟩ := scopeIndex_eq_some rules s i h
    exact hmem
  · intro h
    exact scopeIndex_eq_of_disjoint rules s i hdisj hi h

/-- Under disjointness and split agreement for the rule, the fragment of a
base rule slot computed by the reconciler, expressed through the atomic
scope list of the rule. -/
theorem layoutFragment_eq (rules : List TokenColor) (newRule : TokenColor)
    (hdisj : DisjointScopes rules) (i : Nat) (hi : i < rules.length)
    (hsp : splitScopes (rules[i]).scope = scopesOf (rules[i]).scope) :
    layoutFragment rules newRule (i, rules[i]) =
      if ((scopesOf (rules[i]).scope).filter
            (fun s => s ∈ scopesOf newRule.scope)).isEmpty then [rules[i]]
      else
        (if ((scopesOf (rules[i]).scope).filter
              (fun s => s ∉ scopesOf newRule.scope)).isEmpty then []
         else [{ rules[i] with
                 scope := ScopeField.arr ((scopesOf (rules[i]).scope).filter
                   (fun s => s ∉ scopesOf newRule.scope)) }]) ++
        [{ scope := ScopeField.arr ((scopesOf (rules[i]).scope).filter
             (fun s => s ∈ scopesOf newRule.scope))
           settings := mergeSettings (rules[i]).settings newRule.settings : TokenColor }] := by
  have hgroup := group_filter_eq rules (scopesOf newRule.scope) i hdisj hi
  have hempty : ((scopesOf newRule.scope).filter
      (fun s => s ∈ scopesOf (rules[i]).scope)).isEmpty =
      ((scopesOf (rules[i]).scope).filter
      (fun s => s ∈ scopesOf newRule.scope)).isEmpty := by
    refine bool_eq_of_iff ?_
    rw [List.isEmpty_eq_true, List.isEmpty_eq_true, List.filter_eq_nil_iff,
      List.filter_eq_nil_iff]
    constructor
    · intro h s hs hmem
      exact h s (by simpa using hmem) (by simpa using hs)
    · intro h s hs hmem
      exact h s (by simpa using hmem) (by simpa using hs)
  simp only [layoutFragment]
  rw [hgroup, hempty]
  by_cases hint : ((scopesOf (rules[i]).scope).filter
      (fun s => s ∈ scopesOf newRule.scope)).isEmpty
  · rw [if_pos hint, if_pos hint]
  · rw [if_neg hint, if_neg hint]
    have hmemgroup : ∀ s : String,
        (s ∈ (scopesOf newRule.scope).filter
          (fun t => t ∈ scopesOf (rules[i]).scope)) ↔
        (s ∈ scopesOf newRule.scope ∧ s ∈ scopesOf (rules[i]).scope) := by
      intro s
      rw [List.mem_filter]
      simp
    have hinter : (splitScopes (rules[i]).scope).filter
        (fun s => s ∈ (scopesOf newRule.scope).filter
          (fun t => t ∈ scopesOf (rules[i]).scope)) =
        (scopesOf (rules[i]).scope).filter
          (fun s => s ∈ scopesOf newRule.scope) := by
      rw [hsp]
      refine List.filter_congr (fun s hs => ?_)
      rw [decide_eq_decide, hmemgroup s]
      exact ⟨fun h => h.1, fun h => ⟨h, hs⟩⟩
    have hrem : (splitScopes (rules[i]).scope).filter
        (fun s => s ∉ (scopesOf newRule.scope).filter
          (fun t => t ∈ scopesOf (rules[i]).scope)) =
        (scopesOf (rules[i]).scope).filter
          (fun s => s ∉ scopesOf newRule.scope) := by
      rw [hsp]
      refine List.filter_congr (fun s hs => ?_)
      rw [decide_eq_decide, not_iff_not, hmemgroup s]
      exact ⟨fun h => h.1, fun h => ⟨h, hs⟩⟩
    rw [hinter, hrem, if_neg hint]

theorem layoutFragment_scopes_sub (rules : List TokenColor) (newRule : TokenColor)
    (hdisj : DisjointScopes rules) (i : Nat) (hi : i < rules.length)
    (hsp : splitScopes (rules[i]).scope = scopesOf (rules[i]).scope) :
    ∀ r ∈ layoutFragment rules newRule (i, rules[i]),
      ∀ s ∈ scopesOf r.scope, s ∈ scopesOf (rules[i]).scope := by
  rw [layoutFragment_eq rules newRule hdisj i hi hsp]
  by_cases hint : ((scopesOf (rules[i]).scope).filter
      (fun s => s ∈ scopesOf newRule.scope)).isEmpty
  · rw [if_pos hint]
    intro r hr s hs
    rw [List.mem_singleton] at hr
    subst hr
    exact hs
  · rw [if_neg hint]
    intro r hr s hs
    rcases List.mem_append.mp hr with h1 | h2
    · by_cases hrem : ((scopesOf (rules[i]).scope).filter
          (fun s => s ∉ scopesOf newRule.scope)).isEmpty
      · rw [if_pos hrem] at h1
        exact absurd h1 (List.not_mem_nil r)
      · rw [if_neg hrem, List.mem_singleton] at h1
        subst h1
        simp only [scopesOf] at hs
        exact (List.mem_filter.mp hs).1
    · rw [List.mem_singleton] at h2
      subst h2
      simp only [scopesOf] at hs
      exact (List.mem_filter.mp hs).1

theorem layoutFragment_scopes_cover (rules : List TokenColor) (newRule : TokenColor)
    (hdisj : DisjointScopes rules) (i : Nat) (hi : i < rules.length)
    (hsp : splitScopes (rules[i]).scope = scopesOf (rules[i]).scope) :
    ∀ s ∈ scopesOf (rules[i]).scope,
      ∃ r ∈ layoutFragment rules newRule (i, rules[i]), s ∈ scopesOf r.scope := by
  rw [layoutFragment_eq rules newRule hdisj i hi hsp]
  intro s hs
  by_cases hint : ((scopesOf (rules[i]).scope).filter
      (fun s => s ∈ scopesOf newRule.scope)).isEmpty
  · rw [if_pos hint]
    exact ⟨rules[i], List.mem_singleton.mpr rfl, hs⟩
  · rw [if_neg hint]
    by_cases hsN : s ∈ scopesOf newRule.scope
    · refine ⟨_, List.mem_append.mpr (Or.inr (List.mem_singleton.mpr rfl)), ?_⟩
      simp only [scopesOf]
      exact List.mem_filter.mpr ⟨hs, by simpa using hsN⟩
    · have hsrem : s ∈ (scopesOf (rules[i]).scope).filter
          (fun s => s ∉ scopesOf newRule.scope) :=
        List.mem_filter.mpr ⟨hs, by simpa using hsN⟩
      have hrem : ¬ ((scopesOf (rules[i]).scope).filter
          (fun s => s ∉ scopesOf newRule.scope)).isEmpty = true := by
        rw [List.isEmpty_eq_true]
        intro h
        rw [h] at hsrem
        exact absurd hsrem (List.not_mem_nil s)
      refine ⟨{ rules[i] with
          scope := ScopeField.arr ((scopesOf (rules[i]).scope).filter
            (fun s => s ∉ scopesOf newRule.scope)) }, ?_, ?_⟩
      · refine List.mem_append.mpr (Or.inl ?_)
        rw [if_neg hrem]
        exact List.mem_singleton.mpr rfl
      · simpa [scopesOf] using hsrem

theorem layoutFragment_scopes_ne (rules : List TokenColor) (newRule : TokenColor)
    (hdisj : DisjointScopes rules) (i : Nat) (hi : i < rules.length)
    (hsp : splitScopes (rules[i]).scope = scopesOf (rules[i]).scope)
    (hnei : scopesOf (rules[i]).scope ≠ []) :
    ∀ r ∈ layoutFragment rules newRule (i, rules[i]), scopesOf r.scope ≠ [] := by
  rw [layoutFragment_eq rules newRule hdisj i hi hsp]
  intro r hr
  by_cases hint : ((scopesOf (rules[i]).scope).filter
      (fun s => s ∈ scopesOf newRule.scope)).isEmpty
  · rw [if_pos hint, List.mem_singleton] at hr
    subst hr
    exact hnei
  · rw [if_neg hint] at hr
    rcases List.mem_append.mp hr with h1 | h2
    · by_cases hrem : ((scopesOf (rules[i]).scope).filter
          (fun s => s ∉ scopesOf newRule.scope)).isEmpty
      · rw [if_pos hrem] at h1
        exact absurd h1 (List.not_mem_nil r)
      · rw [if_neg hrem, List.mem_singleton] at h1
        subst h1
        simp only [scopesOf]
        intro h
        rw [List.isEmpty_eq_true] at hrem
        exact hrem h
    · rw [List.mem_singleton] at h2
      subst h2
      simp only [scopesOf]
      intro h
      rw [List.isEmpty_eq_true] at hint
      exact hint h

theorem layoutFragment_pairwise (rules : List TokenColor) (newRule : TokenColor)
    (hdisj : DisjointScopes rules) (i : Nat) (hi : i < rules.length)
    (hsp : splitScopes (rules[i]).scope = scopesOf (rules[i]).scope) :
    List.Pairwise (fun r r' => ∀ s ∈ scopesOf r.scope, s ∉ scopesOf r'.scope)
      (layoutFragment rules newRule (i, rules[i])) := by
  rw [layoutFragment_eq rules newRule hdisj i hi hsp]
  by_cases hint : ((scopesOf (rules[i]).scope).filter
      (fun s => s ∈ scopesOf newRule.scope)).isEmpty
  · rw [if_pos hint]
    exact List.pairwise_singleton _ _
  · rw [if_neg hint]
    by_cases hrem : ((scopesOf (rules[i]).scope).filter
        (fun s => s ∉ scopesOf newRule.scope)).isEmpty
    · rw [if_pos hrem, List.nil_append]
      exact List.pairwise_singleton _ _
    · rw [if_neg hrem, List.singleton_append]
      refine List.pairwise_cons.mpr ⟨?_, List.pairwise_singleton _ _⟩
      intro r' hr' s hs
      rw [List.mem_singleton] at hr'
      subst hr'
      simp only [scopesOf] at hs ⊢
      have hsnot := (List.mem_filter.mp hs).2
      intro hmem
      have hsin := (List.mem_filter.mp hmem).2
      simp only [decide_eq_true_eq] at hsin
      simp only [decide_not, Bool.not_eq_true', decide_eq_false_iff_not] at hsnot
      exact hsnot hsin

theorem layoutTail_scopes (rules : List TokenColor) (newRule : TokenColor) :
    ∀ r ∈ layoutTail rules newRule, ∀ s ∈ scopesOf r.scope,
      s ∈ scopesOf newRule.scope ∧ scopeIndex rules s = none := by
  unfold layoutTail
  by_cases h : ((scopesOf newRule.scope).filter
      (fun s => scopeIndex rules s = none)).isEmpty
  · rw [if_pos h]
    intro r hr
    exact absurd hr (List.not_mem_nil r)
  · rw [if_neg h]
    intro r hr s hs
    rw [List.mem_singleton] at hr
    subst hr
    simp only [scopesOf] at hs
    have := List.mem_filter.mp hs
    exact ⟨this.1, by simpa using this.2⟩

theorem layoutTail_scopes_ne (rules : List TokenColor) (newRule : TokenColor) :
    ∀ r ∈ layoutTail rules newRule, scopesOf r.scope ≠ [] := by
  unfold layoutTail
  by_cases h : ((scopesOf newRule.scope).filter
      (fun s => scopeIndex rules s = none)).isEmpty
  · rw [if_pos h]
    intro r hr
    exact absurd hr (List.not_mem_nil r)
  · rw [if_neg h]
    intro r hr
    rw [List.mem_singleton] at hr
    subst hr
    simp only [scopesOf]
    intro hnil
    rw [List.isEmpty_eq_true] at h
    exact h hnil

theorem layoutTail_cover (rules : List TokenColor) (newRule : TokenColor)
    (s : String) (hsN : s ∈ scopesOf newRule.scope) (hidx : scopeIndex rules s = none) :
    ∃ r ∈ layoutTail rules newRule, s ∈ scopesOf r.scope := by
  have hsf : s ∈ (scopesOf newRule.scope).filter
      (fun s => scopeIndex rules s = none) :=
    List.mem_filter.mpr ⟨hsN, by simpa using hidx⟩
  have hne : ¬ ((scopesOf newRule.scope).filter
      (fun s => scopeIndex rules s = none)).isEmpty = true := by
    rw [List.isEmpty_eq_true]
    intro h
    rw [h] at hsf
    exact absurd hsf (List.not_mem_nil s)
  unfold layoutTail
  rw [if_neg hne]
  exact ⟨_, List.mem_singleton.mpr rfl, by simpa [scopesOf] using hsf⟩

theorem mem_enum_elim {α : Type} (l : List α) (p : Nat × α) (hp : p ∈ l.enum) :
    ∃ h : p.1 < l.length, l[p.1] = p.2 := by
  have := List.mem_enum_iff_getElem?.mp hp
  exact List.getElem?_eq_some.mp this

theorem enum_mem_self {α : Type} (l : List α) (i : Nat) (hi : i < l.length) :
    (i, l[i]) ∈ l.enum := by
  rw [List.mem_enum_iff_getElem?]
  exact List.getElem?_eq_getElem hi

/-- Membership in the reconciler output: a fragment of some base rule slot
or the unclaimed-scope rule. -/
theorem mem_reconcileLayout (rules : List TokenColor) (newRule : TokenColor)
    (r : TokenColor) :
    r ∈ reconcileLayout rules newRule ↔
      (∃ p ∈ rules.enum, r ∈ layoutFragment rules newRule p) ∨
        r ∈ layoutTail rules newRule := by
  unfold reconcileLayout
  rw [List.mem_append, List.mem_flatten]
  constructor
  · rintro (⟨chunk, hc, hr⟩ | ht)
    · rcases List.mem_map.mp hc with ⟨p, hp, rfl⟩
      exact Or.inl ⟨p, hp, hr⟩
    · exact Or.inr ht
  · rintro (⟨p, hp, hr⟩ | ht)
    · exact Or.inl ⟨layoutFragment rules newRule p, List.mem_map_of_mem _ hp, hr⟩
    · exact Or.inr ht

/-- Scope coverage of the reconciler output: under the no-shared-scope
precondition and whitespace-free bare-string scopes, the output mentions
exactly the union of the base scopes and the new-rule scopes. -/
theorem reconcile_cover (rules : List TokenColor) (newRule : TokenColor)
    (hdisj : DisjointScopes rules)
    (hsp : ∀ r ∈ rules, splitScopes r.scope = scopesOf r.scope) :
    ∀ s, s ∈ mentionedScopes (deepMergeTokenColor rules newRule) ↔
        s ∈ mentionedScopes rules ∨ s ∈ scopesOf newRule.scope := by
  rw [deepMergeTokenColor_eq_reconcileLayout]
  intro s
  rw [mem_mentionedScopes, mem_mentionedScopes]
  constructor
  · rintro ⟨r, hrL, hs⟩
    rcases (mem_reconcileLayout rules newRule r).mp hrL with ⟨p, hp, hrf⟩ | htail
    · obtain ⟨hi, hpe⟩ := mem_enum_elim rules p hp
      have hpeta : (p.1, rules[p.1]) = p := by
        rw [hpe]
      rw [← hpeta] at hrf
      have hsub := layoutFragment_scopes_sub rules newRule hdisj p.1 hi
        (hsp _ (List.getElem_mem hi)) r hrf s hs
      exact Or.inl ⟨rules[p.1], List.getElem_mem hi, hsub⟩
    · exact Or.inr (layoutTail_scopes rules newRule r htail s hs).1
  · rintro (⟨r0, hr0, hs⟩ | hsN)
    · obtain ⟨i, hi, hpe⟩ := List.mem_iff_getElem.mp hr0
      obtain ⟨r, hrf, hsr⟩ := layoutFragment_scopes_cover rules newRule hdisj i hi
        (hsp _ (List.getElem_mem hi)) s (by rw [hpe]; exact hs)
      exact ⟨r, (mem_reconcileLayout rules newRule r).mpr
        (Or.inl ⟨(i, rules[i]), enum_mem_self rules i hi, hrf⟩), hsr⟩
    · rcases hidx : scopeIndex rules s with _ | j
      · obtain ⟨r, hrt, hsr⟩ := layoutTail_cover rules newRule s hsN hidx
        exact ⟨r, (mem_reconcileLayout rules newRule r).mpr (Or.inr hrt), hsr⟩
      · obtain ⟨hj, hsj⟩ := scopeIndex_eq_some rules s j hidx
        obtain ⟨r, hrf, hsr⟩ := layoutFragment_scopes_cover rules newRule hdisj j hj
          (hsp _ (List.getElem_mem hj)) s hsj
        exact ⟨r, (mem_reconcileLayout rules newRule r).mpr
          (Or.inl ⟨(j, rules[j]), enum_mem_self rules j hj, hrf⟩), hsr⟩

/-- No two rules of the reconciler output share a scope. -/
theorem reconcile_pairwise (rules : List TokenColor) (newRule : TokenColor)
    (hdisj : DisjointScopes rules)
    (hsp : ∀ r ∈ rules, splitScopes r.scope = scopesOf r.scope) :
    DisjointScopes (deepMergeTokenColor rules newRule) := by
  rw [deepMergeTokenColor_eq_reconcileLayout]
  unfold reconcileLayout DisjointScopes
  rw [List.pairwise_append]
  refine ⟨?_, ?_, ?_⟩
  · rw [List.pairwise_flatten]
    refine ⟨?_, ?_⟩
    · intro chunk hchunk
      rcases List.mem_map.mp hchunk with ⟨p, hp, rfl⟩
      obtain ⟨hi, hpe⟩ := mem_enum_elim rules p hp
      have hpeta : (p.1, rules[p.1]) = p := by
        rw [hpe]
      rw [← hpeta]
      exact layoutFragment_pairwise rules newRule hdisj p.1 hi
        (hsp _ (List.getElem_mem hi))
    · rw [List.pairwise_iff_getElem]
      intro a b ha hb hab
      have ha' : a < rules.length := by simpa using ha
      have hb' : b < rules.length := by simpa using hb
      intro x hx y hy s hs hsy
      rw [List.getElem_map, List.getElem_enum] at hx hy
      have hsa := layoutFragment_scopes_sub rules newRule hdisj a ha'
        (hsp _ (List.getElem_mem ha')) x hx s hs
      have hsb := layoutFragment_scopes_sub rules newRule hdisj b hb'
        (hsp _ (List.getElem_mem hb')) y hy s hsy
      exact (List.pairwise_iff_getElem.mp hdisj) a b ha' hb' hab s hsa hsb
  · unfold layoutTail
    by_cases h : ((scopesOf newRule.scope).filter
        (fun s => scopeIndex rules s = none)).isEmpty
    · rw [if_pos h]
      exact List.Pairwise.nil
    · rw [if_neg h]
      exact List.pairwise_singleton _ _
  · intro x hx y hy s hs hsy
    rw [List.mem_flatten] at hx
    rcases hx with ⟨chunk, hc, hxc⟩
    rcases List.mem_map.mp hc with ⟨p, hp, rfl⟩
    obtain ⟨hi, hpe⟩ := mem_enum_elim rules p hp
    have hpeta : (p.1, rules[p.1]) = p := by
      rw [hpe]
    rw [← hpeta] at hxc
    have hsa := layoutFragment_scopes_sub rules newRule hdisj p.1 hi
      (hsp _ (List.getElem_mem hi)) x hxc s hs
    have hnone := (layoutTail_scopes rules newRule y hy s hsy).2
    obtain ⟨j, hj⟩ := scopeIndex_isSome_of_mem rules s (rules[p.1])
      (List.getElem_mem hi) hsa
    rw [hj] at hnone
    exact Option.noConfusion hnone

/-- No rule of the reconciler output has an empty scope set. -/
theorem reconcile_nonempty (rules : List TokenColor) (newRule : TokenColor)
    (hdisj : DisjointScopes rules)
    (hne : ∀ r ∈ rules, scopesOf r.scope ≠ [])
    (hsp : ∀ r ∈ rules, splitScopes r.scope = scopesOf r.scope) :
    ∀ r ∈ deepMergeTokenColor rules newRule, scopesOf r.scope ≠ [] := by
  rw [deepMergeTokenColor_eq_reconcileLayout]
  intro r hr
  rcases (mem_reconcileLayout rules newRule r).mp hr with ⟨p, hp, hrf⟩ | htail
  · obtain ⟨hi, hpe⟩ := mem_enum_elim rules p hp
    have hpeta : (p.1, rules[p.1]) = p := by
      rw [hpe]
    rw [← hpeta] at hrf
    exact layoutFragment_scopes_ne rules newRule hdisj p.1 hi
      (hsp _ (List.getElem_mem hi)) (hne _ (List.getElem_mem hi)) r hrf
  · exact layoutTail_scopes_ne rules newRule r htail

theorem settingsFor_eq_none_iff (l : List TokenColor) (s : String) :
    settingsFor l s = none ↔ ∀ r ∈ l, s ∉ scopesOf r.scope := by
  unfold settingsFor
  rw [Option.map_eq_none', List.find?_eq_none]
  constructor
  · intro h r hr hs
    exact h r hr (by simpa using hs)
  · intro h r hr hs
    exact h r hr (by simpa using hs)

theorem settingsFor_eq_some_elim (l : List TokenColor) (s : String) (v : Settings)
    (h : settingsFor l s = some v) : ∃ r ∈ l, s ∈ scopesOf r.scope ∧ r.settings = v := by
  unfold settingsFor at h
  rw [Option.map_eq_some'] at h
  rcases h with ⟨r, hfind, hset⟩
  refine ⟨r, List.mem_of_find?_eq_some hfind, ?_, hset⟩
  have := List.find?_some hfind
  simpa using this

/-- Under pairwise scope disjointness the owner of a scope is unique, so any
claiming rule supplies the settings. -/
theorem settingsFor_of_pairwise (l : List TokenColor)
    (hp : List.Pairwise (fun r rr => ∀ s ∈ scopesOf r.scope, s ∉ scopesOf rr.scope) l)
    (r : TokenColor) (hr : r ∈ l) (s : String) (hs : s ∈ scopesOf r.scope) :
    settingsFor l s = some r.settings := by
  induction l with
  | nil => exact absurd hr (List.not_mem_nil r)
  | cons a t ih =>
    rcases List.pairwise_cons.mp hp with ⟨hhead, htail⟩
    by_cases hsa : s ∈ scopesOf a.scope
    · have hra : r = a := by
        rcases List.mem_cons.mp hr with rfl | hrt
        · rfl
        · exact absurd hs (hhead r hrt s hsa)
      subst hra
      unfold settingsFor
      rw [List.find?_cons_of_pos _ (by simpa using hsa)]
      rfl
    · have hrt : r ∈ t := by
        rcases List.mem_cons.mp hr with rfl | hrt
        · exact absurd hs hsa
        · exact hrt
      unfold settingsFor
      rw [List.find?_cons_of_neg _ (by simpa using hsa)]
      exact ih htail hrt

/-- Every rule of the unclaimed tail carries the new settings verbatim. -/
theorem layoutTail_settings (rules : List TokenColor) (newRule : TokenColor) :
    ∀ r ∈ layoutTail rules newRule, r.settings = newRule.settings := by
  unfold layoutTail
  by_cases h : ((scopesOf newRule.scope).filter
      (fun s => scopeIndex rules s = none)).isEmpty
  · rw [if_pos h]
    intro r hr
    exact absurd hr (List.not_mem_nil r)
  · rw [if_neg h]
    intro r hr
    rw [List.mem_singleton] at hr
    subst hr
    rfl

/-- The fragment of a touched base rule that owns scope `s`, together with
its settings: overlay-merged when the new rule also claims `s`, original
otherwise. -/
theorem layoutFragment_owner_settings (rules : List TokenColor) (newRule : TokenColor)
    (hdisj : DisjointScopes rules) (i : Nat) (hi : i < rules.length)
    (hsp : splitScopes (rules[i]).scope = scopesOf (rules[i]).scope)
    (s : String) (hs : s ∈ scopesOf (rules[i]).scope) :
    ∃ r ∈ layoutFragment rules newRule (i, rules[i]), s ∈ scopesOf r.scope ∧
      r.settings = (if s ∈ scopesOf newRule.scope then
        mergeSettings (rules[i]).settings newRule.settings
        else (rules[i]).settings) := by
  rw [layoutFragment_eq rules newRule hdisj i hi hsp]
  by_cases hint : ((scopesOf (rules[i]).scope).filter
      (fun s => s ∈ scopesOf newRule.scope)).isEmpty
  · rw [if_pos hint]
    have hsN : s ∉ scopesOf newRule.scope := by
      intro hmem
      rw [List.isEmpty_eq_true, List.filter_eq_nil_iff] at hint
      exact hint s hs (by simpa using hmem)
    exact ⟨rules[i], List.mem_singleton.mpr rfl, hs, by rw [if_neg hsN]⟩
  · rw [if_neg hint]
    by_cases hsN : s ∈ scopesOf newRule.scope
    · refine ⟨⟨ScopeField.arr ((scopesOf (rules[i]).scope).filter
          (fun t => t ∈ scopesOf newRule.scope)),
          mergeSettings (rules[i]).settings newRule.settings⟩, ?_, ?_, ?_⟩
      · exact List.mem_append.mpr (Or.inr (List.mem_singleton.mpr rfl))
      · simp only [scopesOf]
        exact List.mem_filter.mpr ⟨hs, by simpa using hsN⟩
      · rw [if_pos hsN]
    · have hsrem : s ∈ (scopesOf (rules[i]).scope).filter
          (fun t => t ∉ scopesOf newRule.scope) :=
        List.mem_filter.mpr ⟨hs, by simpa using hsN⟩
      have hrem : ¬ ((scopesOf (rules[i]).scope).filter
          (fun t => t ∉ scopesOf newRule.scope)).isEmpty = true := by
        rw [List.isEmpty_eq_true]
        intro h
        rw [h] at hsrem
        exact absurd hsrem (List.not_mem_nil s)
      refine ⟨{ rules[i] with
          scope := ScopeField.arr ((scopesOf (rules[i]).scope).filter
            (fun t => t ∉ scopesOf newRule.scope)) }, ?_, ?_, ?_⟩
      · refine List.mem_append.mpr (Or.inl ?_)
        rw [if_neg hrem]
        exact List.mem_singleton.mpr rfl
      · simpa [scopesOf] using hsrem
      · rw [if_neg hsN]

/-- Every rule of the reconciler output is a base rule kept verbatim or
carries an array scope field. -/
theorem reconcile_scope_shape (rules : List TokenColor) (newRule : TokenColor) :
    ∀ r ∈ deepMergeTokenColor rules newRule,
      r ∈ rules ∨ ∃ l, r.scope = ScopeField.arr l := by
  rw [deepMergeTokenColor_eq_reconcileLayout]
  intro r hr
  rcases (mem_reconcileLayout rules newRule r).mp hr with ⟨p, hp, hrf⟩ | htail
  · obtain ⟨hi, hpe⟩ := mem_enum_elim rules p hp
    unfold layoutFragment at hrf
    by_cases hg : ((scopesOf newRule.scope).filter
        (fun s => scopeIndex rules s = some p.1)).isEmpty
    · simp only [hg, if_pos] at hrf
      rw [List.mem_singleton] at hrf
      subst hrf
      exact Or.inl (by rw [← hpe]; exact List.getElem_mem hi)
    · simp only [hg] at hrf
      rw [if_neg (by simpa using hg)] at hrf
      rcases List.mem_append.mp hrf with h1 | h2
      · by_cases hrem : ((splitScopes p.2.scope).filter
            (fun s => s ∉ (scopesOf newRule.scope).filter
              (fun t => scopeIndex rules t = some p.1))).isEmpty
        · rw [if_pos hrem] at h1
          exact absurd h1 (List.not_mem_nil r)
        · rw [if_neg hrem, List.mem_singleton] at h1
          subst h1
          exact Or.inr ⟨_, rfl⟩
      · by_cases hint : ((splitScopes p.2.scope).filter
            (fun s => s ∈ (scopesOf newRule.scope).filter
              (fun t => scopeIndex rules t = some p.1))).isEmpty
        · rw [if_pos hint] at h2
          exact absurd h2 (List.not_mem_nil r)
        · rw [if_neg hint, List.mem_singleton] at h2
          subst h2
          exact Or.inr ⟨_, rfl⟩
  · unfold layoutTail at htail
    by_cases h : ((scopesOf newRule.scope).filter
        (fun s => scopeIndex rules s = none)).isEmpty
    · rw [if_pos h] at htail
      exact absurd htail (List.not_mem_nil r)
    · rw [if_neg h, List.mem_singleton] at htail
      subst htail
      exact Or.inr ⟨_, rfl⟩

/-- Whitespace-free bare-string scopes survive reconciliation: every output
rule splits into its atomic scopes. -/
theorem reconcile_split_agrees (rules : List TokenColor) (newRule : TokenColor)
    (hsp : ∀ r ∈ rules, splitScopes r.scope = scopesOf r.scope) :
    ∀ r ∈ deepMergeTokenColor rules newRule, splitScopes r.scope = scopesOf r.scope := by
  intro r hr
  rcases reconcile_scope_shape rules newRule r hr with hbase | ⟨l, harr⟩
  · exact hsp r hbase
  · rw [harr]
    rfl

/-- The settings owning a scope claimed by the new rule after one
reconciliation: the owning base settings overlaid by the new settings, or
the new settings verbatim for a previously unclaimed scope. -/
theorem settingsFor_reconcile_mem (rules : List TokenColor) (newRule : TokenColor)
    (hdisj : DisjointScopes rules)
    (hsp : ∀ r ∈ rules, splitScopes r.scope = scopesOf r.scope)
    (s : String) (hsN : s ∈ scopesOf newRule.scope) :
    settingsFor (deepMergeTokenColor rules newRule) s =
      some (match settingsFor rules s with
            | some old => mergeSettings old newRule.settings
            | none => newRule.settings) := by
  have houtpair := reconcile_pairwise rules newRule hdisj hsp
  rcases hidx : scopeIndex rules s with _ | i
  · have hpre : settingsFor rules s = none := by
      rw [settingsFor_eq_none_iff]
      intro r hr hs
      obtain ⟨j, hj⟩ := scopeIndex_isSome_of_mem rules s r hr hs
      rw [hidx] at hj
      exact Option.noConfusion hj
    rw [hpre]
    obtain ⟨r, hrt, hsr⟩ := layoutTail_cover rules newRule s hsN hidx
    have hrmem : r ∈ deepMergeTokenColor rules newRule := by
      rw [deepMergeTokenColor_eq_reconcileLayout]
      exact (mem_reconcileLayout rules newRule r).mpr (Or.inr hrt)
    rw [settingsFor_of_pairwise _ houtpair r hrmem s hsr,
      layoutTail_settings rules newRule r hrt]
  · obtain ⟨hi, hsi⟩ := scopeIndex_eq_some rules s i hidx
    have hpre : settingsFor rules s = some ((rules[i]).settings) :=
      settingsFor_of_pairwise rules hdisj _ (List.getElem_mem hi) s hsi
    rw [hpre]
    obtain ⟨r, hrf, hsr, hrset⟩ := layoutFragment_owner_settings rules newRule hdisj i hi
      (hsp _ (List.getElem_mem hi)) s hsi
    have hrmem : r ∈ deepMergeTokenColor rules newRule := by
      rw [deepMergeTokenColor_eq_reconcileLayout]
      exact (mem_reconcileLayout rules newRule r).mpr
        (Or.inl ⟨(i, rules[i]), enum_mem_self rules i hi, hrf⟩)
    rw [settingsFor_of_pairwise _ houtpair r hrmem s hsr, hrset, if_pos hsN]

/-- A scope not claimed by the new rule keeps its owner settings across one
reconciliation. -/
theorem settingsFor_reconcile_not_mem (rules : List TokenColor) (newRule : TokenColor)
    (hdisj : DisjointScopes rules)
    (hsp : ∀ r ∈ rules, splitScopes r.scope = scopesOf r.scope)
    (s : String) (hsN : s ∉ scopesOf newRule.scope) :
    settingsFor (deepMergeTokenColor rules newRule) s = settingsFor rules s := by
  have houtpair := reconcile_pairwise rules newRule hdisj hsp
  rcases hpre : settingsFor rules s with _ | v
  · rw [settingsFor_eq_none_iff] at hpre
    rw [settingsFor_eq_none_iff]
    intro r hr hs
    have hmem : s ∈ mentionedScopes (deepMergeTokenColor rules newRule) :=
      (mem_mentionedScopes _ s).mpr ⟨r, hr, hs⟩
    rcases (reconcile_cover rules newRule hdisj hsp s).mp hmem with hbase | hnew
    · rcases (mem_mentionedScopes rules s).mp hbase with ⟨r0, hr0, hs0⟩
      exact hpre r0 hr0 hs0
    · exact hsN hnew
  · obtain ⟨r0, hr0, hs0, hset0⟩ := settingsFor_eq_some_elim rules s v hpre
    obtain ⟨i, hi, hpe⟩ := List.mem_iff_getElem.mp hr0
    obtain ⟨r, hrf, hsr, hrset⟩ := layoutFragment_owner_settings rules newRule hdisj i hi
      (hsp _ (List.getElem_mem hi)) s (by rw [hpe]; exact hs0)
    have hrmem : r ∈ deepMergeTokenColor rules newRule := by
      rw [deepMergeTokenColor_eq_reconcileLayout]
      exact (mem_reconcileLayout rules newRule r).mpr
        (Or.inl ⟨(i, rules[i]), enum_mem_self rules i hi, hrf⟩)
    rw [settingsFor_of_pairwise _ houtpair r hrmem s hsr, hrset, if_neg hsN, hpe, hset0]

theorem mergeField_idem (o n : Option SVal) :
    mergeField (mergeField o n) n = mergeField o n := by
  rcases n with _ | _ | v <;> rfl

theorem mergeSettings_idem (a b : Settings) :
    mergeSettings (mergeSettings a b) b = mergeSettings a b := by
  unfold mergeSettings
  rw [mergeField_idem, mergeField_idem]

theorem effectiveValue_mergeField_self (n : Option SVal) :
    effectiveValue (mergeField n n) = effectiveValue n := by
  rcases n with _ | _ | v <;> rfl

theorem effectiveSettings_mergeSettings_self (t : Settings) :
    effectiveSettings (mergeSettings t t) = effectiveSettings t := by
  unfold effectiveSettings mergeSettings
  rw [effectiveValue_mergeField_self, effectiveValue_mergeField_self]

/-- Applying the same rule a second time changes no effective owner settings,
under the reconciler precondition with whitespace-free bare-string scopes. -/
theorem reconcile_idem (rules : List TokenColor) (newRule : TokenColor)
    (hdisj : DisjointScopes rules)
    (hsp : ∀ r ∈ rules, splitScopes r.scope = scopesOf r.scope) :
    ∀ s, effSettingsFor
        (deepMergeTokenColor (deepMergeTokenColor rules newRule) newRule) s =
      effSettingsFor (deepMergeTokenColor rules newRule) s := by
  intro s
  have hdisj1 := reconcile_pairwise rules newRule hdisj hsp
  have hsp1 := reconcile_split_agrees rules newRule hsp
  unfold effSettingsFor
  by_cases hsN : s ∈ scopesOf newRule.scope
  · rw [settingsFor_reconcile_mem (deepMergeTokenColor rules newRule) newRule hdisj1
      hsp1 s hsN, settingsFor_reconcile_mem rules newRule hdisj hsp s hsN]
    rcases hpre : settingsFor rules s with _ | old
    · simp [effectiveSettings_mergeSettings_self]
    · simp [mergeSettings_idem]
  · rw [settingsFor_reconcile_not_mem (deepMergeTokenColor rules newRule) newRule hdisj1
      hsp1 s hsN]

theorem lookupRec_map_replace {α : Type} (t : Rec' α) (k q : String) (v : Option α)
    (hne : q ≠ k) :
    lookupRec (t.map (fun e => if e.1 = k then (k, v) else e)) q = lookupRec t q := by
  induction t with
  | nil => rfl
  | cons a t ih =>
    by_cases hak : a.1 = k
    · have hkq : ¬ (k : String) = q := fun h => hne h.symm
      have haq : ¬ a.1 = q := fun h => hne (h ▸ hak)
      simp only [List.map_cons, if_pos hak, lookupRec, if_neg hkq, if_neg haq]
      exact ih
    · by_cases haq : a.1 = q
      · simp only [List.map_cons, if_neg hak, lookupRec, if_pos haq]
      · simp only [List.map_cons, if_neg hak, lookupRec, if_neg haq]
        exact ih

theorem lookupRec_append_single {α : Type} (t : Rec' α) (k q : String) (v : Option α)
    (hne : q ≠ k) :
    lookupRec (t ++ [(k, v)]) q = lookupRec t q := by
  induction t with
  | nil =>
    have hkq : ¬ (k : String) = q := fun h => hne h.symm
    simp [lookupRec, hkq]
  | cons a t ih =>
    by_cases haq : a.1 = q
    · simp [lookupRec, haq]
    · simp only [List.cons_append, lookupRec, if_neg haq]
      exact ih

theorem lookupRec_setKey_ne {α : Type} (m : Rec' α) (k q : String) (v : Option α)
    (hne : q ≠ k) : lookupRec (setKey m k v) q = lookupRec m q := by
  unfold setKey
  by_cases h : m.any (fun e => e.1 = k)
  · rw [if_pos h]
    exact lookupRec_map_replace m k q v hne
  · rw [if_neg h]
    exact lookupRec_append_single m k q v hne

theorem lookupRec_map_replace_self {α : Type} (t : Rec' α) (k : String) (v : Option α)
    (hmem : ∃ e ∈ t, e.1 = k) :
    lookupRec (t.map (fun e => if e.1 = k then (k, v) else e)) k = some v := by
  induction t with
  | nil =>
    rcases hmem with ⟨e, he, _⟩
    exact absurd he (List.not_mem_nil e)
  | cons a t ih =>
    by_cases hak : a.1 = k
    · simp [List.map_cons, if_pos hak, lookupRec]
    · rcases hmem with ⟨e, he, hek⟩
      rcases List.mem_cons.mp he with rfl | het
      · exact absurd hek hak
      · simp only [List.map_cons, if_neg hak, lookupRec, if_neg hak]
        exact ih ⟨e, het, hek⟩

theorem lookupRec_append_single_self {α : Type} (t : Rec' α) (k : String) (v : Option α)
    (hnone : ∀ e ∈ t, ¬ e.1 = k) :
    lookupRec (t ++ [(k, v)]) k = some v := by
  induction t with
  | nil => simp [lookupRec]
  | cons a t ih =>
    have hak := hnone a (List.mem_cons_self a t)
    simp only [List.cons_append, lookupRec, if_neg hak]
    exact ih (fun e he => hnone e (List.mem_cons_of_mem a he))

theorem lookupRec_setKey_self {α : Type} (m : Rec' α) (k : String) (v : Option α) :
    lookupRec (setKey m k v) k = some v := by
  unfold setKey
  by_cases h : m.any (fun e => e.1 = k)
  · rw [if_pos h]
    rcases List.any_eq_true.mp h with ⟨e, he, hek⟩
    exact lookupRec_map_replace_self m k v ⟨e, he, by simpa using hek⟩
  · rw [if_neg h]
    rw [List.any_eq_true] at h
    push_neg at h
    refine lookupRec_append_single_self m k v (fun e he => ?_)
    have := h e he
    simpa using this

theorem lookupRec_mergeRecord_some {α : Type} (entries : Rec' α) :
    ∀ (acc : Rec' α) (k : String),
      lookupRec (mergeRecord acc (some entries)) k =
        match definedValue entries k with
        | some v => some (some v)
        | none => lookupRec acc k := by
  induction entries with
  | nil => intro acc k; rfl
  | cons e es ih =>
    intro acc k
    obtain ⟨ek, ev⟩ := e
    have hcons : mergeRecord acc (some ((ek, ev) :: es)) =
        mergeRecord (match ev with
          | none => acc
          | some v => setKey acc ek (some v)) (some es) := by
      rcases ev with _ | v <;> rfl
    rw [hcons, ih]
    have hdv : definedValue ((ek, ev) :: es) k =
        (definedValue es k).orElse (fun _ => if ek = k then ev else none) := rfl
    rw [hdv]
    rcases hes : definedValue es k with _ | v
    · simp only [Option.none_orElse]
      rcases ev with _ | v2
      · simp
      · by_cases hek : ek = k
        · subst hek
          rw [if_pos rfl, lookupRec_setKey_self]
          simp
        · rw [if_neg hek, lookupRec_setKey_ne acc ek k (some v2) (fun h => hek h.symm)]
          simp
    · simp

theorem overlayLookup_none {α : Type} (d : Option (Option α)) :
    overlayLookup none d = d := rfl

theorem overlayLookup_some {α : Type} (v : α) (d : Option (Option α)) :
    overlayLookup (some v) d = some (some v) := rfl

/-- Merging a source contributes, per key, its defined value or falls back
to the accumulator. -/
theorem lookupRec_mergeRecord (acc : Rec' String) (src : ThemeF) (k : String) :
    lookupRec (mergeRecord acc src.colors) k =
      overlayLookup (sourceDefined src k) (lookupRec acc k) := by
  unfold sourceDefined
  rcases hsrc : src.colors with _ | entries
  · rfl
  · rw [lookupRec_mergeRecord_some entries acc k]
    dsimp only
    rcases hdv : definedValue entries k with _ | v <;> simp [overlayLookup]

theorem lastDefined_cons (src : ThemeF) (rest : List ThemeF) (k : String) :
    lastDefined (src :: rest) k =
      (lastDefined rest k).orElse (fun _ => sourceDefined src k) := rfl

theorem deepMergeStep_colors (acc source acc' : ThemeF)
    (h : deepMergeStep acc source = some acc') :
    acc'.colors = some (mergeRecord (acc.colors.getD []) source.colors) := by
  simp only [deepMergeStep] at h
  rcases hft : foldTokenColors acc.tokenColors (source.tokenColors.getD []) with _ | tc
  · rw [hft] at h
    exact Option.noConfusion h
  · rw [hft] at h
    simp only [Option.some_inj] at h
    rw [← h]

theorem foldTokenColors_empty (start : Option (List TokenColor)) :
    foldTokenColors start [] = some start := rfl

theorem foldTokenColors_some (rules : List TokenColor) :
    ∀ l : List TokenColor, ∃ lr, foldTokenColors (some l) rules = some (some lr) := by
  induction rules with
  | nil => intro l; exact ⟨l, rfl⟩
  | cons r t ih =>
    intro l
    have hstep : foldTokenColors (some l) (r :: t) =
        foldTokenColors (some (deepMergeTokenColor l r)) t := rfl
    rw [hstep]
    exact ih (deepMergeTokenColor l r)

theorem deepMergeStep_some_of_some (acc source : ThemeF) (l : List TokenColor)
    (h : acc.tokenColors = some l) :
    ∃ acc' lr, deepMergeStep acc source = some acc' ∧ acc'.tokenColors = some lr := by
  obtain ⟨lr, hfold⟩ := foldTokenColors_some (source.tokenColors.getD []) l
  have hstep : deepMergeStep acc source = some
      { colors := some (mergeRecord (acc.colors.getD []) source.colors)
        tokenColors := some lr
        semanticHighlighting := source.semanticHighlighting.orElse
          (fun _ => acc.semanticHighlighting)
        semanticTokenColors := some (mergeRecord (acc.semanticTokenColors.getD [])
          source.semanticTokenColors) } := by
    simp only [deepMergeStep, h, hfold]
  exact ⟨_, lr, hstep, rfl⟩

theorem deepMergeStep_some_of_empty (acc source : ThemeF)
    (h : source.tokenColors.getD [] = []) :
    ∃ acc', deepMergeStep acc source = some acc' ∧ acc'.tokenColors = acc.tokenColors := by
  have hstep : deepMergeStep acc source = some
      { colors := some (mergeRecord (acc.colors.getD []) source.colors)
        tokenColors := acc.tokenColors
        semanticHighlighting := source.semanticHighlighting.orElse
          (fun _ => acc.semanticHighlighting)
        semanticTokenColors := some (mergeRecord (acc.semanticTokenColors.getD [])
          source.semanticTokenColors) } := by
    simp only [deepMergeStep, h, foldTokenColors_empty]
  exact ⟨_, hstep, rfl⟩

/-- The deep merge completes whenever the base document has a tokenColors
sequence or no source contributes a token rule. -/
theorem deepMergeTheme_total : ∀ (sources : List ThemeF) (base : ThemeF),
    (base.tokenColors ≠ none ∨ ∀ src ∈ sources, src.tokenColors.getD [] = []) →
    ∃ final, deepMergeTheme base sources = some final := by
  intro sources
  induction sources with
  | nil => intro base _; exact ⟨base, rfl⟩
  | cons src rest ih =>
    intro base h
    rcases h with hbase | hall
    · rcases hl : base.tokenColors with _ | l
      · exact absurd hl hbase
      · obtain ⟨acc', lr, hstep, hacc'⟩ := deepMergeStep_some_of_some base src l hl
        obtain ⟨final, hfinal⟩ := ih acc' (Or.inl (by rw [hacc']; exact fun h => Option.noConfusion h))
        refine ⟨final, ?_⟩
        show List.foldlM deepMergeStep base (src :: rest) = some final
        rw [List.foldlM_cons, hstep]
        exact hfinal
    · obtain ⟨acc', hstep, hacc'⟩ :=
        deepMergeStep_some_of_empty base src (hall src (List.mem_cons_self src rest))
      obtain ⟨final, hfinal⟩ := ih acc'
        (Or.inr (fun s hs => hall s (List.mem_cons_of_mem src hs)))
      refine ⟨final, ?_⟩
      show List.foldlM deepMergeStep base (src :: rest) = some final
      rw [List.foldlM_cons, hstep]
      exact hfinal

/-- The shallow overwrite merger field law: every recognized field of the
result is the value of the last source on which the field is present, else
the base value. -/
theorem overwriteTheme_eq : ∀ (sources : List ThemeF) (base : ThemeF),
    overwriteTheme base sources =
      { colors := lastPresent base.colors (sources.map (fun s => s.colors))
        tokenColors := lastPresent base.tokenColors (sources.map (fun s => s.tokenColors))
        semanticHighlighting :=
          lastPresent base.semanticHighlighting (sources.map (fun s => s.semanticHighlighting))
        semanticTokenColors :=
          lastPresent base.semanticTokenColors (sources.map (fun s => s.semanticTokenColors)) } := by
  intro sources
  induction sources with
  | nil => intro base; rfl
  | cons s rest ih =>
    intro base
    show overwriteTheme (overwriteStep base s) rest = _
    rw [ih]
    rfl

theorem foldl_scopeStep_congr (s : String) :
    ∀ (l1 l2 : List (Nat × TokenColor)), l1.length = l2.length →
      (∀ j (h1 : j < l1.length) (h2 : j < l2.length),
        (l1[j]).1 = (l2[j]).1 ∧
          scopesOf (l1[j]).2.scope = scopesOf (l2[j]).2.scope) →
      ∀ init,
        l1.foldl (fun acc p => if s ∈ scopesOf p.2.scope then some p.1 else acc) init =
          l2.foldl (fun acc p => if s ∈ scopesOf p.2.scope then some p.1 else acc) init := by
  intro l1
  induction l1 with
  | nil =>
    intro l2 hlen _ init
    rcases l2 with _ | ⟨b, u⟩
    · rfl
    · exact absurd hlen (by simp)
  | cons a t ih =>
    intro l2 hlen hfacts init
    rcases l2 with _ | ⟨b, u⟩
    · exact absurd hlen (by simp)
    · obtain ⟨hfst, hscopes⟩ := hfacts 0 (by simp) (by simp)
      simp only [List.getElem_cons_zero] at hfst hscopes
      rw [List.foldl_cons, List.foldl_cons]
      have hstep : (if s ∈ scopesOf a.2.scope then some a.1 else init) =
          (if s ∈ scopesOf b.2.scope then some b.1 else init) := by
        rw [hscopes, hfst]
      rw [hstep]
      refine ih u (by simpa using hlen) ?_ _
      intro j h1 h2
      have := hfacts (j + 1) (by simpa using h1) (by simpa using h2)
      simpa using this

theorem scopeIndex_congr (R1 R2 : List TokenColor) (hlen : R1.length = R2.length)
    (hsc : ∀ j (h1 : j < R1.length) (h2 : j < R2.length),
      scopesOf (R1[j]).scope = scopesOf (R2[j]).scope) :
    ∀ t, scopeIndex R1 t = scopeIndex R2 t := by
  intro t
  unfold scopeIndex
  refine foldl_scopeStep_congr t R1.enum R2.enum (by simp [hlen]) ?_ none
  intro j h1 h2
  have h1' : j < R1.length := by simpa using h1
  have h2' : j < R2.length := by simpa using h2
  rw [List.getElem_enum, List.getElem_enum]
  exact ⟨rfl, hsc j h1' h2'⟩

/-- The reconciler result is, up to the canonical scope encoding, a
congruence in the scope list, split list and settings of every base rule. -/
theorem reconcile_canon_congr (R1 R2 : List TokenColor) (newRule : TokenColor)
    (hlen : R1.length = R2.length)
    (hsc : ∀ j (h1 : j < R1.length) (h2 : j < R2.length),
      scopesOf (R1[j]).scope = scopesOf (R2[j]).scope)
    (hsp2 : ∀ j (h1 : j < R1.length) (h2 : j < R2.length),
      splitScopes (R1[j]).scope = splitScopes (R2[j]).scope)
    (hst : ∀ j (h1 : j < R1.length) (h2 : j < R2.length),
      (R1[j]).settings = (R2[j]).settings) :
    (deepMergeTokenColor R1 newRule).map canonRule =
      (deepMergeTokenColor R2 newRule).map canonRule := by
  have hidx : ∀ t, scopeIndex R1 t = scopeIndex R2 t := scopeIndex_congr R1 R2 hlen hsc
  rw [deepMergeTokenColor_eq_reconcileLayout, deepMergeTokenColor_eq_reconcileLayout]
  unfold reconcileLayout
  rw [List.map_append, List.map_append]
  have hfil : (scopesOf newRule.scope).filter (fun t => scopeIndex R1 t = none) =
      (scopesOf newRule.scope).filter (fun t => scopeIndex R2 t = none) :=
    List.filter_congr (fun t _ => by rw [decide_eq_decide, hidx t])
  have htail : layoutTail R1 newRule = layoutTail R2 newRule := by
    unfold layoutTail
    rw [hfil]
  rw [htail]
  refine congrArg (fun z => z ++ (layoutTail R2 newRule).map canonRule) ?_
  rw [List.map_flatten, List.map_flatten]
  refine congrArg List.flatten ?_
  rw [List.map_map, List.map_map]
  apply List.ext_getElem
  · simp [hlen]
  · intro j hj1 hj2
    have h1 : j < R1.length := by simpa using hj1
    have h2 : j < R2.length := by simpa using hj2
    rw [List.getElem_map, List.getElem_map, List.getElem_enum, List.getElem_enum]
    show List.map canonRule (layoutFragment R1 newRule (j, R1[j])) =
      List.map canonRule (layoutFragment R2 newRule (j, R2[j]))
    unfold layoutFragment
    have hg : (scopesOf newRule.scope).filter (fun t => scopeIndex R1 t = some j) =
        (scopesOf newRule.scope).filter (fun t => scopeIndex R2 t = some j) :=
      List.filter_congr (fun t _ => by rw [decide_eq_decide, hidx t])
    rw [hg]
    by_cases hemp : ((scopesOf newRule.scope).filter
        (fun t => scopeIndex R2 t = some j)).isEmpty
    · rw [if_pos hemp, if_pos hemp]
      simp only [List.map_cons, List.map_nil]
      unfold canonRule
      rw [hsc j h1 h2, hst j h1 h2]
    · rw [if_neg hemp, if_neg hemp]
      dsimp only
      rw [hsp2 j h1 h2, hst j h1 h2]

theorem flatten_map_singleton {α : Type} (l : List α) :
    (l.map (fun x => [x])).flatten = l := by
  induction l with
  | nil => rfl
  | cons a t ih => simp [ih]

theorem owner_countP (l : List TokenColor)
    (hp : List.Pairwise (fun r rr => ∀ s ∈ scopesOf r.scope, s ∉ scopesOf rr.scope) l)
    (s : String) (r : TokenColor) (hr : r ∈ l) (hs : s ∈ scopesOf r.scope) :
    l.countP (fun rr => s ∈ scopesOf rr.scope) = 1 := by
  induction l with
  | nil => exact absurd hr (List.not_mem_nil r)
  | cons a t ih =>
    rcases List.pairwise_cons.mp hp with ⟨hhead, htail⟩
    rw [List.countP_cons]
    by_cases hsa : s ∈ scopesOf a.scope
    · have hzero : t.countP (fun rr => s ∈ scopesOf rr.scope) = 0 := by
        rw [List.countP_eq_zero]
        intro rr hrr hmem
        exact hhead rr hrr s hsa (by simpa using hmem)
      rw [hzero]
      simp [hsa]
    · have hrt : r ∈ t := by
        rcases List.mem_cons.mp hr with rfl | h
        · exact absurd hs hsa
        · exact h
      rw [ih htail hrt]
      simp [hsa]

/-- C1, amended: for every existing rule sequence in which no two rules
share a scope, no rule has an empty scope set, and every bare-string scope
splits into itself (contains no space), and every new rule, the reconciler
output mentions exactly the union of the scopes, each mentioned scope lies
in exactly one result rule, no two result rules share a scope, and no
result rule has an empty scope set. -/
theorem claim_C1 (rules : List TokenColor) (newRule : TokenColor)
    (hdisj : DisjointScopes rules)
    (hne : ∀ r ∈ rules, scopesOf r.scope ≠ [])
    (hsp : ∀ r ∈ rules, splitScopes r.scope = scopesOf r.scope) :
    (∀ s, s ∈ mentionedScopes (deepMergeTokenColor rules newRule) ↔
        s ∈ mentionedScopes rules ∨ s ∈ scopesOf newRule.scope) ∧
    (∀ s, s ∈ mentionedScopes (deepMergeTokenColor rules newRule) →
        (deepMergeTokenColor rules newRule).countP
          (fun r => s ∈ scopesOf r.scope) = 1) ∧
    DisjointScopes (deepMergeTokenColor rules newRule) ∧
    (∀ r ∈ deepMergeTokenColor rules newRule, scopesOf r.scope ≠ []) := by
  have hcover := reconcile_cover rules newRule hdisj hsp
  have hpw := reconcile_pairwise rules newRule hdisj hsp
  refine ⟨hcover, ?_, hpw, reconcile_nonempty rules newRule hdisj hne hsp⟩
  intro s hs
  rcases (mem_mentionedScopes _ s).mp hs with ⟨r, hr, hsr⟩
  exact owner_countP _ hpw s r hr hsr

/-- C1 counterexample: a base rule whose bare-string scope holds a space
satisfies the stated preconditions, yet its scope disappears from the
output when the new rule claims it. -/
theorem claim_C1_counterexample :
    DisjointScopes [exRuleAB] ∧ (∀ r ∈ [exRuleAB], scopesOf r.scope ≠ []) ∧
    "a b" ∈ mentionedScopes [exRuleAB] ∧
    "a b" ∉ mentionedScopes (deepMergeTokenColor [exRuleAB] exNewAB) := by
  decide

/-- C2: whenever the intersecting scope list of existing rule `i` with the
new rule group is non-empty, the reconciler emits a rule carrying exactly
those scopes whose settings are rule i settings overlaid attribute by
attribute with the new settings: an attribute absent from the new settings
keeps the old value, a null one is removed, a valued one wins. -/
theorem claim_C2 (rules : List TokenColor) (newRule : TokenColor) (i : Nat)
    (hi : i < rules.length)
    (hinter : (splitScopes (rules[i]).scope).filter
        (fun s => s ∈ (scopesOf newRule.scope).filter
          (fun t => scopeIndex rules t = some i)) ≠ []) :
    ∃ r ∈ deepMergeTokenColor rules newRule,
      r.scope = ScopeField.arr ((splitScopes (rules[i]).scope).filter
        (fun s => s ∈ (scopesOf newRule.scope).filter
          (fun t => scopeIndex rules t = some i))) ∧
      r.settings.foreground = (match newRule.settings.foreground with
        | none => (rules[i]).settings.foreground
        | some none => none
        | some (some v) => some (some v)) ∧
      r.settings.fontStyle = (match newRule.settings.fontStyle with
        | none => (rules[i]).settings.fontStyle
        | some none => none
        | some (some v) => some (some v)) := by
  rw [deepMergeTokenColor_eq_reconcileLayout]
  have hgroup_ne : ¬ ((scopesOf newRule.scope).filter
      (fun t => scopeIndex rules t = some i)).isEmpty = true := by
    rcases hl : (splitScopes (rules[i]).scope).filter
        (fun s => s ∈ (scopesOf newRule.scope).filter
          (fun t => scopeIndex rules t = some i)) with _ | ⟨x, xs⟩
    · exact absurd hl hinter
    · have hx : x ∈ (splitScopes (rules[i]).scope).filter
          (fun s => s ∈ (scopesOf newRule.scope).filter
            (fun t => scopeIndex rules t = some i)) := by
        rw [hl]
        exact List.mem_cons_self x xs
      have hxg := (List.mem_filter.mp hx).2
      rw [List.isEmpty_eq_true]
      intro hgnil
      rw [hgnil] at hxg
      simp at hxg
  have hint_ne : ¬ ((splitScopes (rules[i]).scope).filter
      (fun s => s ∈ (scopesOf newRule.scope).filter
        (fun t => scopeIndex rules t = some i))).isEmpty = true := by
    rw [List.isEmpty_eq_true]
    exact hinter
  refine ⟨⟨ScopeField.arr ((splitScopes (rules[i]).scope).filter
      (fun s => s ∈ (scopesOf newRule.scope).filter
        (fun t => scopeIndex rules t = some i))),
      mergeSettings (rules[i]).settings newRule.settings⟩, ?_, rfl, rfl, rfl⟩
  refine (mem_reconcileLayout rules newRule _).mpr
    (Or.inl ⟨(i, rules[i]), enum_mem_self rules i hi, ?_⟩)
  unfold layoutFragment
  dsimp only
  rw [if_neg hgroup_ne]
  refine List.mem_append.mpr (Or.inr ?_)
  rw [if_neg hint_ne]
  exact List.mem_singleton.mpr rfl

/-- C3: an existing rule whose scope set properly overlaps the new rule
scopes keeps a trimmed copy holding exactly its non-overlapping scopes with
its original settings, under the no-shared-scope precondition. -/
theorem claim_C3 (rules : List TokenColor) (newRule : TokenColor) (i : Nat)
    (hi : i < rules.length) (hdisj : DisjointScopes rules)
    (hover : ∃ s ∈ scopesOf (rules[i]).scope, s ∈ scopesOf newRule.scope)
    (hout : ∃ s ∈ scopesOf (rules[i]).scope, s ∉ scopesOf newRule.scope) :
    (⟨ScopeField.arr ((scopesOf (rules[i]).scope).filter
        (fun s => s ∉ scopesOf newRule.scope)),
      (rules[i]).settings⟩ : TokenColor) ∈
      deepMergeTokenColor rules newRule := by
  have hsp_i : splitScopes (rules[i]).scope = scopesOf (rules[i]).scope := by
    rcases hsc : (rules[i]).scope with s | l
    · exfalso
      rcases hover with ⟨x, hx, hxN⟩
      rcases hout with ⟨y, hy, hyN⟩
      rw [hsc] at hx hy
      simp only [scopesOf, List.mem_singleton] at hx hy
      subst hx
      subst hy
      exact hyN hxN
    · rfl
  rw [deepMergeTokenColor_eq_reconcileLayout]
  refine (mem_reconcileLayout rules newRule _).mpr
    (Or.inl ⟨(i, rules[i]), enum_mem_self rules i hi, ?_⟩)
  rw [layoutFragment_eq rules newRule hdisj i hi hsp_i]
  have hint : ¬ ((scopesOf (rules[i]).scope).filter
      (fun s => s ∈ scopesOf newRule.scope)).isEmpty = true := by
    rcases hover with ⟨x, hx, hxN⟩
    rw [List.isEmpty_eq_true, List.filter_eq_nil_iff]
    intro h
    exact h x hx (by simpa using hxN)
  have hrem : ¬ ((scopesOf (rules[i]).scope).filter
      (fun s => s ∉ scopesOf newRule.scope)).isEmpty = true := by
    rcases hout with ⟨y, hy, hyN⟩
    rw [List.isEmpty_eq_true, List.filter_eq_nil_iff]
    intro h
    exact h y hy (by simpa using hyN)
  rw [if_neg hint]
  refine List.mem_append.mpr (Or.inl ?_)
  rw [if_neg hrem]
  exact List.mem_singleton.mpr rfl

/-- C4: after a deep merge, every colors key holds the value given by the
last source defining it with a non-absent value, else the base value. -/
theorem claim_C4 : ∀ (sources : List ThemeF) (base final : ThemeF) (k : String),
    deepMergeTheme base sources = some final →
    lookupRec (final.colors.getD []) k =
      overlayLookup (lastDefined sources k) (lookupRec (base.colors.getD []) k) := by
  intro sources
  induction sources with
  | nil =>
    intro base final k h
    have hbf : base = final := by
      have h' : some base = some final := h
      exact Option.some_inj.mp h'
    subst hbf
    rfl
  | cons src rest ih =>
    intro base final k h
    have h' : (deepMergeStep base src).bind
        (fun b => List.foldlM deepMergeStep b rest) = some final := by
      have h2 : List.foldlM deepMergeStep base (src :: rest) = some final := h
      rw [List.foldlM_cons] at h2
      exact h2
    rcases Option.bind_eq_some.mp h' with ⟨acc1, hstep, hrest⟩
    have hacc1 := deepMergeStep_colors base src acc1 hstep
    have hlook : lookupRec (acc1.colors.getD []) k =
        overlayLookup (sourceDefined src k) (lookupRec (base.colors.getD []) k) := by
      rw [hacc1, Option.getD_some]
      exact lookupRec_mergeRecord (base.colors.getD []) src k
    rw [ih acc1 final k hrest, lastDefined_cons]
    rcases hld : lastDefined rest k with _ | v
    · rw [overlayLookup_none]
      have hor : (none : Option String).orElse (fun _ => sourceDefined src k) =
          sourceDefined src k := rfl
      rw [hor, hlook]
    · rw [overlayLookup_some]
      have hor : (some v).orElse (fun _ => sourceDefined src k) = some v := rfl
      rw [hor, overlayLookup_some]

/-- C5, amended: a rule stored as a bare string without spaces is handled
exactly as its one-element array encoding, up to the canonical array
encoding of untouched rules. -/
theorem claim_C5 (rules : List TokenColor) (j : Nat) (hj : j < rules.length)
    (s : String) (newRule : TokenColor)
    (hstr : (rules[j]).scope = ScopeField.str s)
    (hsplit : splitOnSpace s = [s]) :
    (deepMergeTokenColor rules newRule).map canonRule =
      (deepMergeTokenColor (rules.set j
        { scope := ScopeField.arr [s], settings := (rules[j]).settings })
        newRule).map canonRule := by
  apply reconcile_canon_congr
  · simp
  · intro i h1 h2
    rw [List.getElem_set]
    by_cases hij : j = i
    · subst hij
      rw [if_pos rfl, hstr]
      rfl
    · rw [if_neg hij]
  · intro i h1 h2
    rw [List.getElem_set]
    by_cases hij : j = i
    · subst hij
      rw [if_pos rfl, hstr]
      exact hsplit
    · rw [if_neg hij]
  · intro i h1 h2
    rw [List.getElem_set]
    by_cases hij : j = i
    · subst hij
      rw [if_pos rfl]
    · rw [if_neg hij]

/-- C5 counterexample: with a space in the bare-string scope the two
encodings give different outputs, even up to canonical encoding. -/
theorem claim_C5_counterexample :
    deepMergeTokenColor [exRuleAB] exNewAB ≠
      deepMergeTokenColor [{ scope := ScopeField.arr ["a b"], settings := exSettings1 }]
        exNewAB ∧
    (deepMergeTokenColor [exRuleAB] exNewAB).map canonRule ≠
      (deepMergeTokenColor [{ scope := ScopeField.arr ["a b"], settings := exSettings1 }]
        exNewAB).map canonRule := by
  decide

/-- C6, amended: the deep merge completes and returns a theme whenever the
base document carries a tokenColors sequence, or no source contributes a
token rule; missing colors and semanticTokenColors objects anywhere, and a
missing tokenColors on any source, are treated as empty. -/
theorem claim_C6 (base : ThemeF) (sources : List ThemeF)
    (h : base.tokenColors ≠ none ∨ ∀ src ∈ sources, src.tokenColors.getD [] = []) :
    ∃ final, deepMergeTheme base sources = some final :=
  deepMergeTheme_total sources base h

/-- C6 counterexample: a base without tokenColors and a source with one
token rule make the merge throw (modelled as `none`). -/
theorem claim_C6_counterexample :
    deepMergeTheme ⟨none, none, none, none⟩
      [⟨none, some [exCRule], none, none⟩] = none := by
  decide

/-- C7, amended: reconciling with a rule twice yields the same effective
scope-to-settings mapping as reconciling once, under the no-shared-scope
invariant with whitespace-free bare-string scopes. -/
theorem claim_C7 (rules : List TokenColor) (newRule : TokenColor)
    (hdisj : DisjointScopes rules)
    (hsp : ∀ r ∈ rules, splitScopes r.scope = scopesOf r.scope) :
    ∀ s, effSettingsFor
        (deepMergeTokenColor (deepMergeTokenColor rules newRule) newRule) s =
      effSettingsFor (deepMergeTokenColor rules newRule) s :=
  reconcile_idem rules newRule hdisj hsp

/-- C7 counterexample: with a space-containing bare-string scope the second
application of the same rule adds a new owner for the scope string. -/
theorem claim_C7_counterexample :
    DisjointScopes [exRuleAB] ∧ (∀ r ∈ [exRuleAB], scopesOf r.scope ≠ []) ∧
    effSettingsFor
        (deepMergeTokenColor (deepMergeTokenColor [exRuleAB] exNewAB) exNewAB) "a b" ≠
      effSettingsFor (deepMergeTokenColor [exRuleAB] exNewAB) "a b" := by
  decide

/-- C8: overwriteTheme applies sources left to right, each of the four
recognized fields present on a source wholly replacing the accumulator
field and an absent field leaving it untouched; in particular a
colors-only source replaces colors entirely and leaves tokenColors. -/
theorem claim_C8 :
    (∀ (base : ThemeF) (sources : List ThemeF),
      overwriteTheme base sources =
        { colors := lastPresent base.colors (sources.map (fun s => s.colors))
          tokenColors := lastPresent base.tokenColors (sources.map (fun s => s.tokenColors))
          semanticHighlighting := lastPresent base.semanticHighlighting
            (sources.map (fun s => s.semanticHighlighting))
          semanticTokenColors := lastPresent base.semanticTokenColors
            (sources.map (fun s => s.semanticTokenColors)) }) ∧
    (∀ (base : ThemeF) (c : Rec' String),
      overwriteTheme base [⟨some c, none, none, none⟩] =
        { base with colors := some c }) := by
  refine ⟨fun base sources => overwriteTheme_eq sources base, fun base c => rfl⟩

/-- C9, amended: a new rule with at least one scope, none of which is owned
by an existing rule, leaves every existing rule untouched and appends one
rule holding exactly the new scopes and settings. -/
theorem claim_C9 (rules : List TokenColor) (newRule : TokenColor)
    (hunowned : ∀ s ∈ scopesOf newRule.scope, ∀ r ∈ rules, s ∉ scopesOf r.scope)
    (hne : scopesOf newRule.scope ≠ []) :
    deepMergeTokenColor rules newRule =
      rules ++ [⟨ScopeField.arr (scopesOf newRule.scope), newRule.settings⟩] := by
  rw [deepMergeTokenColor_eq_reconcileLayout]
  unfold reconcileLayout
  have hidxnone : ∀ s ∈ scopesOf newRule.scope, scopeIndex rules s = none := by
    intro s hs
    rcases hidx : scopeIndex rules s with _ | j
    · rfl
    · obtain ⟨hj, hsj⟩ := scopeIndex_eq_some rules s j hidx
      exact absurd hsj (hunowned s hs (rules[j]) (List.getElem_mem hj))
  have hfrag : rules.enum.map (layoutFragment rules newRule) =
      rules.enum.map (fun p => [p.2]) := by
    refine List.map_congr_left (fun p hp => ?_)
    unfold layoutFragment
    have hgnil : (scopesOf newRule.scope).filter
        (fun s => scopeIndex rules s = some p.1) = [] := by
      rw [List.filter_eq_nil_iff]
      intro s hs
      simp only [decide_eq_true_eq]
      rw [hidxnone s hs]
      exact fun h => Option.noConfusion h
    rw [hgnil]
    rfl
  rw [hfrag]
  have hsing : rules.enum.map (fun p : Nat × TokenColor => [p.2]) =
      rules.map (fun x => [x]) := by
    have h1 : rules.enum.map (fun p : Nat × TokenColor => [p.2]) =
        (rules.enum.map Prod.snd).map (fun x => [x]) := by
      rw [List.map_map]
      rfl
    rw [h1, List.enum_map_snd]
  rw [hsing, flatten_map_singleton]
  unfold layoutTail
  dsimp only
  have hunc : (scopesOf newRule.scope).filter
      (fun s => scopeIndex rules s = none) = scopesOf newRule.scope := by
    rw [List.filter_eq_self]
    intro s hs
    simp [hidxnone s hs]
  rw [hunc]
  have hne2 : ¬ (scopesOf newRule.scope).isEmpty = true := by
    rw [List.isEmpty_eq_true]
    exact hne
  rw [if_neg hne2]

/-- C9 counterexample: a new rule with an empty scope array owns no scope,
yet the reconciler adds no rule for it, returning the base unchanged. -/
theorem claim_C9_counterexample :
    deepMergeTokenColor [⟨ScopeField.arr ["a"], exSettings1⟩]
        ⟨ScopeField.arr [], exSettings2⟩ =
      [⟨ScopeField.arr ["a"], exSettings1⟩] ∧
    deepMergeTokenColor [⟨ScopeField.arr ["a"], exSettings1⟩]
        ⟨ScopeField.arr [], exSettings2⟩ ≠
      [⟨ScopeField.arr ["a"], exSettings1⟩] ++
        [⟨ScopeField.arr [], exSettings2⟩] := by
  decide

/-- C10: the reconciler output is fully determined: base rule slots in
original relative order, each replaced in place by its trimmed remainder
and then its intersected merged fragment, with the rule for unclaimed
scopes at the very end and every emitted fragment carrying an array
scope. -/
theorem claim_C10 : ∀ (rules : List TokenColor) (newRule : TokenColor),
    deepMergeTokenColor rules newRule = reconcileLayout rules newRule :=
  deepMergeTokenColor_eq_reconcileLayout

theorem claim_C1_witness :
    (DisjointScopes [exRuleArrAB, exRuleC] ∧
      (∀ r ∈ [exRuleArrAB, exRuleC], scopesOf r.scope ≠ []) ∧
      (∀ r ∈ [exRuleArrAB, exRuleC], splitScopes r.scope = scopesOf r.scope)) ∧
    ((∀ s, s ∈ mentionedScopes (deepMergeTokenColor [exRuleArrAB, exRuleC]
        { scope := ScopeField.arr ["b", "d"], settings := exSettings2 }) ↔
        s ∈ mentionedScopes [exRuleArrAB, exRuleC] ∨
          s ∈ scopesOf (ScopeField.arr ["b", "d"])) ∧
      (∀ s, s ∈ mentionedScopes (deepMergeTokenColor [exRuleArrAB, exRuleC]
          { scope := ScopeField.arr ["b", "d"], settings := exSettings2 }) →
        (deepMergeTokenColor [exRuleArrAB, exRuleC]
          { scope := ScopeField.arr ["b", "d"], settings := exSettings2 }).countP
            (fun r => s ∈ scopesOf r.scope) = 1) ∧
      DisjointScopes (deepMergeTokenColor [exRuleArrAB, exRuleC]
        { scope := ScopeField.arr ["b", "d"], settings := exSettings2 }) ∧
      (∀ r ∈ deepMergeTokenColor [exRuleArrAB, exRuleC]
          { scope := ScopeField.arr ["b", "d"], settings := exSettings2 },
        scopesOf r.scope ≠ [])) :=
  ⟨⟨by decide, by decide, by decide⟩,
    claim_C1 [exRuleArrAB, exRuleC]
      { scope := ScopeField.arr ["b", "d"], settings := exSettings2 }
      (by decide) (by decide) (by decide)⟩

theorem claim_C2_witness :
    ((splitScopes (([exRuleX][0]).scope)).filter
        (fun s => s ∈ (scopesOf exNewX.scope).filter
          (fun t => scopeIndex [exRuleX] t = some 0)) ≠ []) ∧
    (∃ r ∈ deepMergeTokenColor [exRuleX] exNewX,
      r.scope = ScopeField.arr ((splitScopes (([exRuleX][0]).scope)).filter
        (fun s => s ∈ (scopesOf exNewX.scope).filter
          (fun t => scopeIndex [exRuleX] t = some 0))) ∧
      r.settings.foreground = (match exNewX.settings.foreground with
        | none => (([exRuleX][0]).settings).foreground
        | some none => none
        | some (some v) => some (some v)) ∧
      r.settings.fontStyle = (match exNewX.settings.fontStyle with
        | none => (([exRuleX][0]).settings).fontStyle
        | some none => none
        | some (some v) => some (some v))) ∧
    deepMergeTokenColor [exRuleX] exNewX =
      [{ scope := ScopeField.arr ["x"],
         settings := { foreground := some (some "#aaa"), fontStyle := none } }] :=
  ⟨by decide, claim_C2 [exRuleX] exNewX 0 (by decide) (by decide), by decide⟩

theorem claim_C3_witness :
    (DisjointScopes [exRuleArrAB] ∧
      (∃ s ∈ scopesOf exRuleArrAB.scope, s ∈ scopesOf (ScopeField.str "b")) ∧
      (∃ s ∈ scopesOf exRuleArrAB.scope, s ∉ scopesOf (ScopeField.str "b"))) ∧
    (⟨ScopeField.arr ((scopesOf (([exRuleArrAB][0]).scope)).filter
        (fun s => s ∉ scopesOf (ScopeField.str "b"))),
      (([exRuleArrAB][0]).settings)⟩ : TokenColor) ∈
      deepMergeTokenColor [exRuleArrAB] { scope := ScopeField.str "b", settings := exSettings2 } ∧
    deepMergeTokenColor [exRuleArrAB] { scope := ScopeField.str "b", settings := exSettings2 } =
      [{ scope := ScopeField.arr ["a"], settings := exSettings1 },
       { scope := ScopeField.arr ["b"], settings := exSettings2 }] :=
  ⟨⟨by decide, by decide, by decide⟩,
    claim_C3 [exRuleArrAB] { scope := ScopeField.str "b", settings := exSettings2 } 0
      (by decide) (by decide) (by decide) (by decide),
    by decide⟩

theorem claim_C4_witness :
    deepMergeTheme ⟨some [("editor.background", some "#111")], some [], none, none⟩
        [⟨some [("editor.background", some "#000")], none, none, none⟩] =
      some ⟨some [("editor.background", some "#000")], some [], none, some []⟩ ∧
    lookupRec ((some [("editor.background", some "#000")] : Option (Rec' String)).getD [])
        "editor.background" =
      overlayLookup
        (lastDefined [⟨some [("editor.background", some "#000")], none, none, none⟩]
          "editor.background")
        (lookupRec ((some [("editor.background", some "#111")] :
          Option (Rec' String)).getD []) "editor.background") :=
  ⟨by decide,
    claim_C4 [⟨some [("editor.background", some "#000")], none, none, none⟩]
      ⟨some [("editor.background", some "#111")], some [], none, none⟩
      ⟨some [("editor.background", some "#000")], some [], none, some []⟩
      "editor.background" (by decide)⟩

theorem claim_C5_witness :
    ((([exRuleStrX][0]).scope = ScopeField.str "x") ∧
      splitOnSpace "x" = ["x"]) ∧
    (deepMergeTokenColor [exRuleStrX]
        { scope := ScopeField.str "x", settings := exSettings2 }).map canonRule =
      (deepMergeTokenColor ([exRuleStrX].set 0
          { scope := ScopeField.arr ["x"],
            settings := (([exRuleStrX][0]).settings) })
        { scope := ScopeField.str "x", settings := exSettings2 }).map canonRule :=
  ⟨⟨by decide, by decide⟩,
    claim_C5 [exRuleStrX] 0 (by decide) "x"
      { scope := ScopeField.str "x", settings := exSettings2 } (by decide) (by decide)⟩

theorem claim_C6_witness :
    ((⟨none, some [], none, none⟩ : ThemeF).tokenColors ≠ none ∨
      ∀ src ∈ [(⟨none, some [exCRule], none, none⟩ : ThemeF)],
        src.tokenColors.getD [] = []) ∧
    (∃ final, deepMergeTheme ⟨none, some [], none, none⟩
        [⟨none, some [exCRule], none, none⟩] = some final) :=
  ⟨by decide,
    claim_C6 ⟨none, some [], none, none⟩ [⟨none, some [exCRule], none, none⟩] (by decide)⟩

theorem claim_C7_witness :
    (DisjointScopes [exRuleArrAB] ∧
      (∀ r ∈ [exRuleArrAB], splitScopes r.scope = scopesOf r.scope)) ∧
    (∀ s, effSettingsFor
        (deepMergeTokenColor (deepMergeTokenColor [exRuleArrAB] exNewA) exNewA) s =
      effSettingsFor (deepMergeTokenColor [exRuleArrAB] exNewA) s) :=
  ⟨⟨by decide, by decide⟩, claim_C7 [exRuleArrAB] exNewA (by decide) (by decide)⟩

theorem claim_C9_witness :
    ((∀ s ∈ scopesOf exNewC.scope, ∀ r ∈ [exRuleArrAB], s ∉ scopesOf r.scope) ∧
      scopesOf exNewC.scope ≠ []) ∧
    deepMergeTokenColor [exRuleArrAB] exNewC =
      [exRuleArrAB] ++ [⟨ScopeField.arr (scopesOf exNewC.scope), exNewC.settings⟩] :=
  ⟨⟨by decide, by decide⟩, claim_C9 [exRuleArrAB] exNewC (by decide) (by decide)⟩

end ThemeMerge

